import Mathlib

/-!
Verification of the Hermes news-digest pipeline.

The Python sources (hermes_discoverer.py, scraper_module.py,
filter_and_save.py, visual_enhancer.py) are shallowly embedded here.
Python strings are modelled as lists of characters (Lean `Char` is a
unicode scalar value, as in Python).  Library routines that the code
calls (urllib.parse, re searches on the concrete patterns used,
str.strip / str.replace / str.lower) are embedded with their CPython
semantics on the inputs the code can produce; unicode-only corner cases
(non-ASCII case mapping, non-ASCII whitespace classes) are modelled by
their ASCII behaviour, which is what every string constant in the
repository exercises.  External effects (HTTP fetches, feedparser,
BeautifulSoup queries, LLM calls) are inputs to the embedded functions:
each network/LLM interaction is a value of a small outcome type, so the
embedded control flow is exactly the Python control flow over those
outcomes.
-/

set_option maxHeartbeats 1000000
set_option maxRecDepth 4000

namespace Hermes

/-- Python strings are modelled as lists of characters. -/
abbrev Str := List Char

/-- Coerce a Lean string literal to the model type. -/
def ofStr (s : String) : Str := s.data

/-- ASCII whitespace, the characters Python str.strip and the regex
class match on the ASCII range: space, tab, newline, CR, VT, FF. -/
def wsC (c : Char) : Bool := c.toNat = 32 || (9 ≤ c.toNat && c.toNat ≤ 13)

/-- Python str.strip on the left. -/
def trimL (s : Str) : Str := s.dropWhile wsC

/-- Python str.strip on the right. -/
def trimR (s : Str) : Str := (s.reverse.dropWhile wsC).reverse

/-- Python str.strip. -/
def trim (s : Str) : Str := trimR (trimL s)

/-- ASCII lower-casing of one character (Python str.lower restricted to
ASCII, which is exact on all strings the code lower-cases). -/
def lowerC (c : Char) : Char :=
  if 65 ≤ c.toNat ∧ c.toNat ≤ 90 then Char.ofNat (c.toNat + 32) else c

/-- Python int() on a run of ASCII digits. -/
def natOfDigits (ds : Str) : Nat := ds.foldl (fun a c => a * 10 + (c.toNat - 48)) 0

/-- Split a string at the first occurrence of character c:
returns (before, after), neither containing that occurrence. -/
def breakFirst (c : Char) : Str → Option (Str × Str)
  | [] => none
  | x :: t =>
    if x = c then some ([], t)
    else (breakFirst c t).map (fun p => (x :: p.1, p.2))

/-- Split on every occurrence of character c (Python str.split(c)). -/
def splitAllC (c : Char) : Str → List Str
  | [] => [[]]
  | x :: t =>
    if x = c then [] :: splitAllC c t
    else
      match splitAllC c t with
      | [] => [[x]]
      | h :: r => (x :: h) :: r

/-- Split at the first occurrence of a substring pat:
returns (before, after). -/
def splitOnSub (pat : Str) : Str → Option (Str × Str)
  | [] => if pat = [] then some ([], []) else none
  | c :: t =>
    if pat.isPrefixOf (c :: t) then some ([], (c :: t).drop pat.length)
    else (splitOnSub pat t).map (fun p => (c :: p.1, p.2))

/-- Fuel-driven split on every occurrence of a substring
(Python re.split with a literal pattern). -/
def splitSubAllF (pat : Str) : Nat → Str → List Str
  | 0, s => [s]
  | fuel + 1, s =>
    match splitOnSub pat s with
    | none => [s]
    | some (a, b) => a :: splitSubAllF pat fuel b

/-- Split on every occurrence of a substring. -/
def splitSubAll (pat s : Str) : List Str := splitSubAllF pat (s.length + 1) s

/-- Substring containment (the Python in operator on strings). -/
def containsSub (pat s : Str) : Bool := (splitOnSub pat s).isSome

/-- Case-insensitive literal prefix test; pat is given lower-case. -/
def ciPre (pat : Str) (s : Str) : Bool := (s.take pat.length).map lowerC = pat

/-- Basic facts about breakFirst. -/
theorem breakFirst_eq_none {c : Char} {s : Str} :
    breakFirst c s = none ↔ c ∉ s := by
  induction s with
  | nil => simp [breakFirst]
  | cons x t ih =>
    by_cases hx : x = c
    · subst hx; simp [breakFirst]
    · have hcx : ¬c = x := fun h => hx h.symm
      simp [breakFirst, if_neg hx, Option.map_eq_none', ih, List.mem_cons, hcx]

theorem breakFirst_append {c : Char} {a b : Str} (h : c ∉ a) :
    breakFirst c (a ++ c :: b) = some (a, b) := by
  induction a with
  | nil => simp [breakFirst]
  | cons x t ih =>
    have hx : x ≠ c := fun hc => h (hc ▸ List.mem_cons_self x t)
    have ht : c ∉ t := fun hc => h (List.mem_cons_of_mem x hc)
    simp [breakFirst, hx, ih ht]

theorem breakFirst_of_not_mem {c : Char} {s : Str} (h : c ∉ s) :
    breakFirst c s = none := breakFirst_eq_none.mpr h

/-- When the first part contains the split character, breakFirst of the
concatenation splits inside the first part. -/
theorem breakFirst_append_left {c : Char} {a x : Str} {p : Str × Str}
    (h : breakFirst c a = some p) :
    breakFirst c (a ++ x) = some (p.1, p.2 ++ x) := by
  induction a generalizing p with
  | nil => simp [breakFirst] at h
  | cons y t ih =>
    rw [List.cons_append]
    by_cases hy : y = c
    · subst hy
      simp only [breakFirst, if_pos rfl] at h ⊢
      cases h; simp
    · simp only [breakFirst, if_neg hy] at h ⊢
      cases hb : breakFirst c t with
      | none => rw [hb] at h; cases h
      | some q =>
        rw [hb] at h
        simp only [Option.map_some'] at h
        cases h
        simp [ih hb]

/-!
UTF-8 encoding and strict decoding, used by the embedding of
urllib.parse quoting.  Encoding works on unicode code points (Nat);
decoding is the strict UTF-8 decoder (overlong forms, surrogates and
out-of-range values rejected), emitting U+FFFD for invalid input as
the codecs errors=replace policy does.  (On invalid sequences Python
emits one replacement per maximal invalid subsequence; this model
emits one per invalid byte, which is observably identical on all valid
input, the only case the round-trip theorems depend on.)
-/

/-- UTF-8 encoding of one unicode code point. -/
def utf8Enc (n : Nat) : List Nat :=
  if n < 0x80 then [n]
  else if n < 0x800 then [0xC0 + n / 64, 0x80 + n % 64]
  else if n < 0x10000 then [0xE0 + n / 4096, 0x80 + n / 64 % 64, 0x80 + n % 64]
  else [0xF0 + n / 0x40000, 0x80 + n / 4096 % 64, 0x80 + n / 64 % 64, 0x80 + n % 64]

/-- A UTF-8 continuation byte. -/
def contB (b : Nat) : Bool := 0x80 ≤ b && b < 0xC0

/-- One strict UTF-8 decoding step on a non-empty byte list: returns
the decoded code point (U+FFFD for invalid input) and the number of
bytes consumed. -/
def utf8Step : List Nat → Nat × Nat
  | [] => (0xFFFD, 1)
  | b0 :: t =>
    if b0 < 0x80 then (b0, 1)
    else if b0 < 0xE0 then
      match t with
      | b1 :: _ =>
        if 0xC2 ≤ b0 ∧ contB b1 then ((b0 - 0xC0) * 64 + (b1 - 0x80), 2) else (0xFFFD, 1)
      | [] => (0xFFFD, 1)
    else if b0 < 0xF0 then
      match t with
      | b1 :: b2 :: _ =>
        if contB b1 ∧ contB b2 ∧ 0x800 ≤ (b0 - 0xE0) * 4096 + (b1 - 0x80) * 64 + (b2 - 0x80) ∧
            ¬(0xD800 ≤ (b0 - 0xE0) * 4096 + (b1 - 0x80) * 64 + (b2 - 0x80) ∧
              (b0 - 0xE0) * 4096 + (b1 - 0x80) * 64 + (b2 - 0x80) < 0xE000) then
          ((b0 - 0xE0) * 4096 + (b1 - 0x80) * 64 + (b2 - 0x80), 3)
        else (0xFFFD, 1)
      | _ => (0xFFFD, 1)
    else if b0 < 0xF8 then
      match t with
      | b1 :: b2 :: b3 :: _ =>
        if contB b1 ∧ contB b2 ∧ contB b3 ∧
            0x10000 ≤ (b0 - 0xF0) * 0x40000 + (b1 - 0x80) * 4096 + (b2 - 0x80) * 64 +
              (b3 - 0x80) ∧
            (b0 - 0xF0) * 0x40000 + (b1 - 0x80) * 4096 + (b2 - 0x80) * 64 + (b3 - 0x80) <
              0x110000 then
          ((b0 - 0xF0) * 0x40000 + (b1 - 0x80) * 4096 + (b2 - 0x80) * 64 + (b3 - 0x80), 4)
        else (0xFFFD, 1)
      | _ => (0xFFFD, 1)
    else (0xFFFD, 1)

/-- Fuelled strict UTF-8 decoding loop. -/
def utf8DecF : Nat → List Nat → List Nat
  | 0, _ => []
  | _ + 1, [] => []
  | fuel + 1, b0 :: t =>
    let s := utf8Step (b0 :: t)
    s.1 :: utf8DecF fuel ((b0 :: t).drop s.2)

/-- Strict UTF-8 decoding with U+FFFD replacement on invalid bytes. -/
def utf8Dec (l : List Nat) : List Nat := utf8DecF l.length l

theorem utf8Step_pos (l : List Nat) : 1 ≤ (utf8Step l).2 := by
  unfold utf8Step
  repeat' split
  all_goals simp

theorem utf8DecF_congr : ∀ (f1 f2 : Nat) (l : List Nat),
    l.length ≤ f1 → l.length ≤ f2 → utf8DecF f1 l = utf8DecF f2 l := by
  intro f1
  induction f1 with
  | zero =>
    intro f2 l h1 _
    have : l = [] := List.eq_nil_of_length_eq_zero (by omega)
    subst this
    cases f2 <;> rfl
  | succ f ih =>
    intro f2 l h1 h2
    cases l with
    | nil => cases f2 <;> rfl
    | cons b0 t =>
      cases f2 with
      | zero => simp at h2
      | succ g =>
        simp only [utf8DecF]
        congr 1
        have hk := utf8Step_pos (b0 :: t)
        have hd : ((b0 :: t).drop (utf8Step (b0 :: t)).2).length =
            (b0 :: t).length - (utf8Step (b0 :: t)).2 := List.length_drop _ _
        apply ih <;> (rw [hd]; simp only [List.length_cons] at h1 h2 ⊢; omega)

/-- Validity of a code point: what a Lean Char (and CPython when
encoding a str with no lone surrogates) guarantees. -/
def validCp (n : Nat) : Prop := n < 0x110000 ∧ ¬(0xD800 ≤ n ∧ n < 0xE000)

theorem utf8Enc_lt_256 {n : Nat} (h : n < 0x110000) :
    ∀ b ∈ utf8Enc n, b < 256 := by
  intro b hb
  unfold utf8Enc at hb
  split at hb
  · simp at hb; omega
  · split at hb
    · simp at hb
      rcases hb with hb | hb <;> omega
    · split at hb
      · simp at hb
        rcases hb with hb | hb | hb <;> omega
      · simp at hb
        rcases hb with hb | hb | hb | hb <;> omega

theorem utf8Dec_cons_step {l : List Nat} {c k : Nat}
    (hs : utf8Step l = (c, k)) (hne : l ≠ []) :
    utf8Dec l = c :: utf8Dec (l.drop k) := by
  cases l with
  | nil => cases hne rfl
  | cons b t =>
    have hk : 1 ≤ k := by
      have := utf8Step_pos (b :: t)
      rw [hs] at this
      exact this
    show utf8DecF (b :: t).length (b :: t) = _
    simp only [List.length_cons, utf8DecF, hs]
    congr 1
    apply utf8DecF_congr
    · rw [List.length_drop]
      simp only [List.length_cons]
      omega
    · rfl

theorem utf8Dec_ascii {b0 : Nat} (t : List Nat) (h : b0 < 0x80) :
    utf8Dec (b0 :: t) = b0 :: utf8Dec t := by
  have hs : utf8Step (b0 :: t) = (b0, 1) := by simp [utf8Step, h]
  simpa using utf8Dec_cons_step hs (by simp)

theorem utf8Dec_two {b0 b1 : Nat} (t : List Nat) (h0 : 0xC2 ≤ b0) (h0' : b0 < 0xE0)
    (h1 : contB b1) :
    utf8Dec (b0 :: b1 :: t) = ((b0 - 0xC0) * 64 + (b1 - 0x80)) :: utf8Dec t := by
  have d0 : ¬b0 < 0x80 := by omega
  have hs : utf8Step (b0 :: b1 :: t) = ((b0 - 0xC0) * 64 + (b1 - 0x80), 2) := by
    simp [utf8Step, d0, h0', h0, h1]
  simpa using utf8Dec_cons_step hs (by simp)

theorem utf8Dec_three {b0 b1 b2 : Nat} (t : List Nat) (h0 : 0xE0 ≤ b0) (h0' : b0 < 0xF0)
    (h1 : contB b1) (h2 : contB b2)
    (hlo : 0x800 ≤ (b0 - 0xE0) * 4096 + (b1 - 0x80) * 64 + (b2 - 0x80))
    (hsur : ¬(0xD800 ≤ (b0 - 0xE0) * 4096 + (b1 - 0x80) * 64 + (b2 - 0x80) ∧
      (b0 - 0xE0) * 4096 + (b1 - 0x80) * 64 + (b2 - 0x80) < 0xE000)) :
    utf8Dec (b0 :: b1 :: b2 :: t) =
      ((b0 - 0xE0) * 4096 + (b1 - 0x80) * 64 + (b2 - 0x80)) :: utf8Dec t := by
  have d0 : ¬b0 < 0x80 := by omega
  have d1 : ¬b0 < 0xE0 := by omega
  have hs : utf8Step (b0 :: b1 :: b2 :: t) =
      ((b0 - 0xE0) * 4096 + (b1 - 0x80) * 64 + (b2 - 0x80), 3) := by
    simp [utf8Step, d0, d1, h0', h1, h2, hlo, hsur]
  simpa using utf8Dec_cons_step hs (by simp)

theorem utf8Dec_four {b0 b1 b2 b3 : Nat} (t : List Nat) (h0 : 0xF0 ≤ b0) (h0' : b0 < 0xF8)
    (h1 : contB b1) (h2 : contB b2) (h3 : contB b3)
    (hlo : 0x10000 ≤ (b0 - 0xF0) * 0x40000 + (b1 - 0x80) * 4096 + (b2 - 0x80) * 64 + (b3 - 0x80))
    (hhi : (b0 - 0xF0) * 0x40000 + (b1 - 0x80) * 4096 + (b2 - 0x80) * 64 + (b3 - 0x80) <
      0x110000) :
    utf8Dec (b0 :: b1 :: b2 :: b3 :: t) =
      ((b0 - 0xF0) * 0x40000 + (b1 - 0x80) * 4096 + (b2 - 0x80) * 64 + (b3 - 0x80)) ::
        utf8Dec t := by
  have d0 : ¬b0 < 0x80 := by omega
  have d1 : ¬b0 < 0xE0 := by omega
  have d2 : ¬b0 < 0xF0 := by omega
  have hs : utf8Step (b0 :: b1 :: b2 :: b3 :: t) =
      ((b0 - 0xF0) * 0x40000 + (b1 - 0x80) * 4096 + (b2 - 0x80) * 64 + (b3 - 0x80), 4) := by
    simp [utf8Step, d0, d1, d2, h0', h1, h2, h3, hlo, hhi]
  simpa using utf8Dec_cons_step hs (by simp)

/-- The key decoding round-trip: a valid code point encoding followed
by any bytes decodes to the code point followed by the decoding of
the rest. -/
theorem utf8Dec_enc {n : Nat} (h : validCp n) (bs : List Nat) :
    utf8Dec (utf8Enc n ++ bs) = n :: utf8Dec bs := by
  obtain ⟨h1, h2⟩ := h
  unfold utf8Enc
  split
  · rename_i hn
    rw [List.cons_append, List.nil_append, utf8Dec_ascii _ hn]
  · split
    · rename_i hn hn'
      rw [List.cons_append, List.cons_append, List.nil_append,
        utf8Dec_two bs (by omega) (by omega) (by simp [contB]; omega)]
      congr 1
      omega
    · split
      · rename_i hn hn' hn''
        rw [List.cons_append, List.cons_append, List.cons_append, List.nil_append,
          utf8Dec_three bs (by omega) (by omega) (by simp [contB]; omega)
            (by simp [contB]; omega) (by omega) (by omega)]
        congr 1
        omega
      · rename_i hn hn' hn''
        rw [List.cons_append, List.cons_append, List.cons_append, List.cons_append,
          List.nil_append,
          utf8Dec_four bs (by omega) (by omega) (by simp [contB]; omega)
            (by simp [contB]; omega) (by simp [contB]; omega) (by omega) (by omega)]
        congr 1
        omega

/-!
urllib.parse quoting.  quote_plus percent-encodes the UTF-8 bytes of
every character outside the always-safe set (ASCII alphanumerics and
underscore, dot, hyphen, tilde), with space mapped to plus and
upper-case hex digits.  unquote_plus maps plus to space, then within
each maximal ASCII chunk turns percent-hex-pairs into bytes (a percent
sign not followed by two hex digits stays literal) and decodes the
resulting byte string as UTF-8 with errors=replace.
-/

/-- The always-safe characters of urllib.parse.quote: ASCII
alphanumerics, underscore, dot, hyphen, tilde. -/
def safeChar (c : Char) : Bool :=
  (48 ≤ c.toNat && c.toNat ≤ 57) || (65 ≤ c.toNat && c.toNat ≤ 90) ||
    (97 ≤ c.toNat && c.toNat ≤ 122) || c = '_' || c = '.' || c = '-' || c = '~'

/-- Upper-case hex digit. -/
def hexDig (n : Nat) : Char := if n < 10 then Char.ofNat (48 + n) else Char.ofNat (55 + n)

/-- Percent-encoding of one byte. -/
def pctByte (b : Nat) : Str := ['%', hexDig (b / 16), hexDig (b % 16)]

/-- Encoding of one character under quote_plus. -/
def encChar (c : Char) : Str :=
  if c = ' ' then ['+']
  else if safeChar c then [c]
  else (utf8Enc c.toNat).flatMap pctByte

/-- urllib.parse.quote_plus. -/
def quotePlus (s : Str) : Str := s.flatMap encChar

/-- Value of one hex digit character, either case. -/
def hexVal (c : Char) : Option Nat :=
  if 48 ≤ c.toNat ∧ c.toNat ≤ 57 then some (c.toNat - 48)
  else if 65 ≤ c.toNat ∧ c.toNat ≤ 70 then some (c.toNat - 55)
  else if 97 ≤ c.toNat ∧ c.toNat ≤ 102 then some (c.toNat - 87)
  else none

/-- State machine for percent-decoding an ASCII chunk.  The second
argument is the pending partial escape: empty, a lone percent sign, or
a percent sign and one hex digit.  A completed hex pair becomes one
byte; a percent sign not followed by two hex digits stays literal. -/
def pbAux : Str → Str → List Nat
  | [], pend => pend.map Char.toNat
  | c :: t, [] =>
    if c = '%' then pbAux t [c] else c.toNat :: pbAux t []
  | c :: t, [p] =>
    if (hexVal c).isSome then pbAux t [p, c]
    else if c = '%' then p.toNat :: pbAux t [c]
    else p.toNat :: c.toNat :: pbAux t []
  | c :: t, p :: h :: _ =>
    match hexVal h, hexVal c with
    | some a, some b => (16 * a + b) :: pbAux t []
    | _, _ =>
      if c = '%' then p.toNat :: h.toNat :: pbAux t [c]
      else p.toNat :: h.toNat :: c.toNat :: pbAux t []

/-- Bytes of an ASCII chunk under unquote: percent-hex pairs become
one byte, everything else its own code. -/
def pctBytes (s : Str) : List Nat := pbAux s []

/-- ASCII test. -/
def isAsciiC (c : Char) : Bool := c.toNat < 128

theorem length_dropWhile_le {α : Type} (p : α → Bool) (l : List α) :
    (l.dropWhile p).length ≤ l.length := by
  induction l with
  | nil => simp [List.dropWhile]
  | cons a t ih =>
    rw [List.dropWhile]
    split
    · simp only [List.length_cons]
      omega
    · simp

/-- Fuelled unquote loop over maximal ASCII chunks. -/
def unqF : Nat → Str → Str
  | 0, s => s
  | _ + 1, [] => []
  | fuel + 1, c :: t =>
    if isAsciiC c then
      (utf8Dec (pctBytes (c :: t.takeWhile isAsciiC))).map Char.ofNat ++
        unqF fuel (t.dropWhile isAsciiC)
    else c :: unqF fuel t

/-- urllib.parse.unquote: maximal ASCII chunks are percent-decoded to
bytes and UTF-8-decoded; non-ASCII characters pass through. -/
def unq (s : Str) : Str := unqF s.length s

theorem unqF_congr : ∀ (f1 f2 : Nat) (s : Str),
    s.length ≤ f1 → s.length ≤ f2 → unqF f1 s = unqF f2 s := by
  intro f1
  induction f1 with
  | zero =>
    intro f2 s h1 _
    have : s = [] := List.eq_nil_of_length_eq_zero (by omega)
    subst this
    cases f2 <;> rfl
  | succ f ih =>
    intro f2 s h1 h2
    cases s with
    | nil => cases f2 <;> rfl
    | cons c t =>
      cases f2 with
      | zero => simp at h2
      | succ g =>
        simp only [unqF]
        have hdl := length_dropWhile_le isAsciiC t
        simp only [List.length_cons] at h1 h2
        by_cases hc : isAsciiC c
        · rw [if_pos hc, if_pos hc, ih g (t.dropWhile isAsciiC) (by omega) (by omega)]
        · rw [if_neg hc, if_neg hc, ih g t (by omega) (by omega)]

/-- One-step unfolding of unq. -/
theorem unq_cons (c : Char) (t : Str) :
    unq (c :: t) = if isAsciiC c then
      (utf8Dec (pctBytes (c :: t.takeWhile isAsciiC))).map Char.ofNat ++
        unq (t.dropWhile isAsciiC)
    else c :: unq t := by
  show unqF (c :: t).length (c :: t) = _
  rw [List.length_cons, unqF]
  have hdl := length_dropWhile_le isAsciiC t
  by_cases hc : isAsciiC c
  · rw [if_pos hc, if_pos hc,
      unqF_congr t.length (t.dropWhile isAsciiC).length (t.dropWhile isAsciiC) (by omega)
        (by omega)]
    rfl
  · rw [if_neg hc, if_neg hc]
    rfl

/-- Replace plus by space (the first step of unquote_plus). -/
def plusToSp (c : Char) : Char := if c = '+' then ' ' else c

/-- urllib.parse.unquote_plus. -/
def unquotePlus (s : Str) : Str := unq (s.map plusToSp)

/-- Encoding of one character under quote_plus seen after the
plus-to-space replacement of a later unquote_plus. -/
def encSp (c : Char) : Str := if c = ' ' then [' '] else encChar c

/-- A list on which a function is the identity maps to itself. -/
theorem map_self {α : Type} (f : α → α) (l : List α) (h : ∀ x ∈ l, f x = x) :
    l.map f = l := by
  induction l with
  | nil => rfl
  | cons a t ih =>
    simp only [List.map_cons, h a (List.mem_cons_self a t)]
    rw [ih (fun x hx => h x (List.mem_cons_of_mem a hx))]

/-- Every Lean character carries a valid (non-surrogate, in-range)
code point, matching CPython str contents when encoding succeeds. -/
theorem char_validCp (c : Char) : validCp c.toNat := by
  have h := c.valid
  have he : c.toNat = c.val.toNat := rfl
  unfold validCp
  rw [he]
  rcases h with h | h
  · have : c.val.toNat < 55296 := h
    constructor <;> omega
  · obtain ⟨h1, h2⟩ := h
    have h1' : 57343 < c.val.toNat := h1
    have h2' : c.val.toNat < 1114112 := h2
    constructor <;> omega

theorem hexDig_ne_plus : ∀ m, m < 16 → hexDig m ≠ '+' := by decide

theorem pctByte_ne_plus {b : Nat} (hb : b < 256) : ∀ x ∈ pctByte b, x ≠ '+' := by
  intro x hx
  unfold pctByte at hx
  simp only [List.mem_cons, List.mem_singleton, List.not_mem_nil, or_false] at hx
  rcases hx with h | h | h
  · subst h; decide
  · subst h; exact hexDig_ne_plus _ (by omega)
  · subst h; exact hexDig_ne_plus _ (by omega)

theorem plus_not_safe : safeChar '+' = false := by decide

theorem map_plusToSp_quotePlus (s : Str) : (quotePlus s).map plusToSp = s.flatMap encSp := by
  induction s with
  | nil => rfl
  | cons c t ih =>
    show ((encChar c ++ quotePlus t).map plusToSp) = encSp c ++ t.flatMap encSp
    rw [List.map_append, ih]
    congr 1
    by_cases hsp : c = ' '
    · simp [encChar, encSp, hsp, plusToSp]
    · by_cases hsafe : safeChar c
      · have hne : c ≠ '+' := by
          intro h
          rw [h, plus_not_safe] at hsafe
          cases hsafe
        simp [encChar, encSp, hsp, hsafe, plusToSp, hne]
      · simp only [encChar, encSp, if_neg hsp, if_neg hsafe]
        apply map_self
        intro x hx
        simp only [List.mem_flatMap] at hx
        obtain ⟨b, hb, hxb⟩ := hx
        have hb256 : b < 256 :=
          utf8Enc_lt_256 (char_validCp c).1 b hb
        have := pctByte_ne_plus hb256 x hxb
        simp [plusToSp, this]

theorem hexVal_hexDig : ∀ m, m < 16 → hexVal (hexDig m) = some m := by decide

theorem hexDig_ascii : ∀ m, m < 16 → isAsciiC (hexDig m) = true := by decide

theorem safeChar_ascii {c : Char} (h : safeChar c = true) : c.toNat < 128 := by
  unfold safeChar at h
  simp only [Bool.or_eq_true, decide_eq_true_eq, Bool.and_eq_true] at h
  rcases h with ((((((h | h) | h) | h) | h) | h) | h) <;>
    first
      | omega
      | (subst h; decide)

theorem encSp_ascii (c : Char) : ∀ x ∈ encSp c, isAsciiC x = true := by
  intro x hx
  unfold encSp encChar at hx
  by_cases hsp : c = ' '
  · rw [if_pos hsp] at hx
    simp at hx
    subst hx; decide
  · rw [if_neg hsp, if_neg hsp] at hx
    by_cases hsafe : safeChar c
    · rw [if_pos hsafe] at hx
      simp at hx
      subst hx
      simp only [isAsciiC, decide_eq_true_eq]
      exact safeChar_ascii hsafe
    · rw [if_neg hsafe] at hx
      simp only [List.mem_flatMap] at hx
      obtain ⟨b, hb, hxb⟩ := hx
      have hb256 : b < 256 := utf8Enc_lt_256 (char_validCp c).1 b hb
      unfold pctByte at hxb
      simp only [List.mem_cons, List.mem_singleton, List.not_mem_nil, or_false] at hxb
      rcases hxb with h | h | h
      · subst h; decide
      · subst h; exact hexDig_ascii _ (by omega)
      · subst h; exact hexDig_ascii _ (by omega)

theorem encSp_ne_nil (c : Char) : encSp c ≠ [] := by
  unfold encSp encChar
  by_cases hsp : c = ' '
  · simp [hsp]
  · rw [if_neg hsp, if_neg hsp]
    by_cases hsafe : safeChar c
    · simp [hsafe]
    · rw [if_neg hsafe]
      unfold utf8Enc
      split
      · simp [pctByte]
      · split
        · simp [pctByte]
        · split
          · simp [pctByte]
          · simp [pctByte]

theorem pctBytes_cons_lit {c : Char} (t : Str) (h : c ≠ '%') :
    pctBytes (c :: t) = c.toNat :: pctBytes t := by
  unfold pctBytes
  rw [pbAux, if_neg h]

theorem pctBytes_pct_hex {h1 h2 : Char} {a b : Nat} (t : Str)
    (ha : hexVal h1 = some a) (hb : hexVal h2 = some b) :
    pctBytes ('%' :: h1 :: h2 :: t) = (16 * a + b) :: pctBytes t := by
  unfold pctBytes
  rw [pbAux, if_pos rfl, pbAux, if_pos (by rw [ha]; rfl)]
  rw [pbAux]
  simp [ha, hb]

theorem pctBytes_pctByte {b : Nat} (hb : b < 256) (r : Str) :
    pctBytes (pctByte b ++ r) = b :: pctBytes r := by
  unfold pctByte
  rw [List.cons_append, List.cons_append, List.cons_append, List.nil_append,
    pctBytes_pct_hex r (hexVal_hexDig _ (by omega)) (hexVal_hexDig _ (by omega))]
  congr 1
  omega

theorem pctBytes_pctEnc (bs : List Nat) (r : Str) (h : ∀ b ∈ bs, b < 256) :
    pctBytes (bs.flatMap pctByte ++ r) = bs ++ pctBytes r := by
  induction bs with
  | nil => simp
  | cons b t ih =>
    rw [List.flatMap_cons, List.append_assoc,
      pctBytes_pctByte (h b (List.mem_cons_self b t)) _, List.cons_append,
      ih (fun x hx => h x (List.mem_cons_of_mem b hx))]

theorem safeChar_not_pct {c : Char} (h : safeChar c = true) : c ≠ '%' := by
  intro hc
  rw [hc] at h
  cases h

theorem pctBytes_encSp (c : Char) (r : Str) :
    pctBytes (encSp c ++ r) = utf8Enc c.toNat ++ pctBytes r := by
  unfold encSp encChar
  by_cases hsp : c = ' '
  · rw [if_pos hsp]
    subst hsp
    rw [List.cons_append, List.nil_append, pctBytes_cons_lit _ (by decide)]
    rfl
  · rw [if_neg hsp, if_neg hsp]
    by_cases hsafe : safeChar c
    · rw [if_pos hsafe, List.cons_append, List.nil_append,
        pctBytes_cons_lit _ (safeChar_not_pct hsafe)]
      have : utf8Enc c.toNat = [c.toNat] := by
        unfold utf8Enc
        rw [if_pos (safeChar_ascii hsafe)]
      rw [this]
      rfl
    · rw [if_neg hsafe]
      exact pctBytes_pctEnc _ r (fun b hb => utf8Enc_lt_256 (char_validCp c).1 b hb)

theorem unq_all_ascii {l : Str} (hl : l ≠ []) (h : ∀ x ∈ l, isAsciiC x = true) :
    unq l = (utf8Dec (pctBytes l)).map Char.ofNat := by
  cases l with
  | nil => cases hl rfl
  | cons c t =>
    rw [unq_cons]
    rw [if_pos (h c (List.mem_cons_self c t))]
    have htake : t.takeWhile isAsciiC = t :=
      List.takeWhile_eq_self_iff.mpr (fun x hx => h x (List.mem_cons_of_mem c hx))
    have hdrop : t.dropWhile isAsciiC = [] :=
      List.dropWhile_eq_nil_iff.mpr (fun x hx => h x (List.mem_cons_of_mem c hx))
    rw [htake, hdrop]
    simp [unq, unqF]

/-- Decoding the concatenated UTF-8 encodings of the characters of a
string recovers the string. -/
theorem utf8Dec_flat (s : Str) :
    (utf8Dec (s.flatMap (fun c => utf8Enc c.toNat))).map Char.ofNat = s := by
  induction s with
  | nil => simp [utf8Dec, utf8DecF]
  | cons c t ih =>
    rw [List.flatMap_cons, utf8Dec_enc (char_validCp c), List.map_cons, ih,
      Char.ofNat_toNat]

/-- unquote_plus inverts quote_plus. -/
theorem unquotePlus_quotePlus (s : Str) : unquotePlus (quotePlus s) = s := by
  unfold unquotePlus
  rw [map_plusToSp_quotePlus]
  cases hs : s.flatMap encSp with
  | nil =>
    cases s with
    | nil => simp [unq, unqF]
    | cons c t =>
      exfalso
      rw [List.flatMap_cons] at hs
      have := encSp_ne_nil c
      cases he : encSp c with
      | nil => exact this he
      | cons a b => rw [he] at hs; cases hs
  | cons a b =>
    rw [← hs]
    have hne : s.flatMap encSp ≠ [] := by rw [hs]; intro h; cases h
    have hascii : ∀ x ∈ s.flatMap encSp, isAsciiC x = true := by
      intro x hx
      rw [List.mem_flatMap] at hx
      obtain ⟨c, _, hxc⟩ := hx
      exact encSp_ascii c x hxc
    rw [unq_all_ascii hne hascii]
    have hflat : ∀ u : Str, pctBytes (u.flatMap encSp) =
        u.flatMap (fun c => utf8Enc c.toNat) := by
      intro u
      induction u with
      | nil => simp [pctBytes, pbAux]
      | cons c t ih =>
        rw [List.flatMap_cons, List.flatMap_cons, pctBytes_encSp, ih]
    rw [hflat, utf8Dec_flat]

/-!
urllib.parse.parse_qs and urlencode, as called by normalize_url.
parse_qs splits the query string on ampersands (the modern CPython
default separator), on the first equals sign within each field, skips
empty fields, fields without an equals sign and fields with an empty
value (keep_blank_values is False), unquotes names and values with
unquote_plus, and aggregates the pairs into an insertion-ordered dict
of lists, modelled as an association list.  urlencode with doseq=True
emits quote_plus(k)=quote_plus(v) for every value of every key, joined
by ampersands.
-/

/-- urllib.parse.parse_qsl with the default arguments. -/
def parseQsl (q : Str) : List (Str × Str) :=
  (splitAllC '&' q).filterMap (fun field =>
    if field = [] then none
    else
      match breakFirst '=' field with
      | none => none
      | some (k, v) => if v = [] then none else some (unquotePlus k, unquotePlus v))

/-- Python dict insertion for parse_qs aggregation: append to the
existing entry of the key, or add a new entry at the end. -/
def addPair (acc : List (Str × List Str)) (k v : Str) : List (Str × List Str) :=
  match acc with
  | [] => [(k, [v])]
  | (k1, vs) :: t => if k1 = k then (k1, vs ++ [v]) :: t else (k1, vs) :: addPair t k v

/-- urllib.parse.parse_qs. -/
def parse_qs (q : Str) : List (Str × List Str) :=
  (parseQsl q).foldl (fun acc kv => addPair acc kv.1 kv.2) []

/-- Python str.join with an ampersand separator. -/
def joinAmp : List Str → Str
  | [] => []
  | [p] => p
  | p :: q :: r => p ++ '&' :: joinAmp (q :: r)

/-- urllib.parse.urlencode with doseq=True on a dict of string lists. -/
def urlencodeF (d : List (Str × List Str)) : Str :=
  joinAmp (d.flatMap (fun kv => kv.2.map (fun v => quotePlus kv.1 ++ '=' :: quotePlus v)))

/-- The keys of an association list. -/
def keysOf (d : List (Str × List Str)) : List Str := d.map Prod.fst

/-- Characters that can occur in quote_plus output: plus, percent,
safe characters, and upper-case hex digits. -/
def qChar (x : Char) : Prop :=
  x = '+' ∨ x = '%' ∨ safeChar x = true ∨ (48 ≤ x.toNat ∧ x.toNat ≤ 57) ∨
    (65 ≤ x.toNat ∧ x.toNat ≤ 70)

instance (x : Char) : Decidable (qChar x) := by
  unfold qChar
  infer_instance

theorem hexDig_range : ∀ m, m < 16 →
    (48 ≤ (hexDig m).toNat ∧ (hexDig m).toNat ≤ 57) ∨
      (65 ≤ (hexDig m).toNat ∧ (hexDig m).toNat ≤ 70) := by decide

theorem quotePlus_mem {s : Str} : ∀ x ∈ quotePlus s, qChar x := by
  intro x hx
  unfold quotePlus at hx
  rw [List.mem_flatMap] at hx
  obtain ⟨c, _, hxc⟩ := hx
  unfold encChar at hxc
  by_cases hsp : c = ' '
  · rw [if_pos hsp] at hxc
    simp at hxc
    exact Or.inl hxc
  · rw [if_neg hsp] at hxc
    by_cases hsafe : safeChar c
    · rw [if_pos hsafe] at hxc
      simp at hxc
      subst hxc
      exact Or.inr (Or.inr (Or.inl hsafe))
    · rw [if_neg hsafe] at hxc
      rw [List.mem_flatMap] at hxc
      obtain ⟨b, hb, hxb⟩ := hxc
      have hb256 : b < 256 := utf8Enc_lt_256 (char_validCp c).1 b hb
      unfold pctByte at hxb
      simp only [List.mem_cons, List.mem_singleton, List.not_mem_nil, or_false] at hxb
      rcases hxb with h | h | h
      · exact Or.inr (Or.inl h)
      · subst h
        rcases hexDig_range (b / 16) (by omega) with h | h
        · exact Or.inr (Or.inr (Or.inr (Or.inl h)))
        · exact Or.inr (Or.inr (Or.inr (Or.inr h)))
      · subst h
        rcases hexDig_range (b % 16) (by omega) with h | h
        · exact Or.inr (Or.inr (Or.inr (Or.inl h)))
        · exact Or.inr (Or.inr (Or.inr (Or.inr h)))

theorem not_mem_quotePlus {x : Char} (hx : ¬qChar x) (s : Str) : x ∉ quotePlus s :=
  fun h => hx (quotePlus_mem x h)

theorem mem_joinAmp {x : Char} : ∀ {ps : List Str}, x ∈ joinAmp ps →
    x = '&' ∨ ∃ p ∈ ps, x ∈ p := by
  intro ps
  induction ps with
  | nil => intro h; cases h
  | cons p q ih =>
    cases q with
    | nil =>
      intro h
      exact Or.inr ⟨p, List.mem_cons_self p [], h⟩
    | cons p2 r =>
      intro h
      rw [joinAmp] at h
      rw [List.mem_append, List.mem_cons] at h
      rcases h with h | h | h
      · exact Or.inr ⟨p, List.mem_cons_self _ _, h⟩
      · exact Or.inl h
      · rcases ih h with h2 | ⟨p3, hp3, hxp3⟩
        · exact Or.inl h2
        · exact Or.inr ⟨p3, List.mem_cons_of_mem _ hp3, hxp3⟩

theorem urlencodeF_mem {d : List (Str × List Str)} :
    ∀ x ∈ urlencodeF d, qChar x ∨ x = '&' ∨ x = '=' := by
  intro x hx
  unfold urlencodeF at hx
  rcases mem_joinAmp hx with h | ⟨p, hp, hxp⟩
  · exact Or.inr (Or.inl h)
  · rw [List.mem_flatMap] at hp
    obtain ⟨kv, _, hpkv⟩ := hp
    rw [List.mem_map] at hpkv
    obtain ⟨v, _, hv⟩ := hpkv
    subst hv
    rw [List.mem_append] at hxp
    rcases hxp with h | h
    · exact Or.inl (quotePlus_mem x h)
    · rw [List.mem_cons] at h
      rcases h with h | h
      · exact Or.inr (Or.inr h)
      · exact Or.inl (quotePlus_mem x h)

theorem splitAllC_ne_nil (c : Char) (s : Str) : splitAllC c s ≠ [] := by
  cases s with
  | nil => simp [splitAllC]
  | cons x t =>
    rw [splitAllC]
    by_cases hx : x = c
    · simp [hx]
    · rw [if_neg hx]
      cases splitAllC c t <;> simp

theorem splitAllC_no_sep {c : Char} {s : Str} (h : c ∉ s) : splitAllC c s = [s] := by
  induction s with
  | nil => rfl
  | cons x t ih =>
    have hx : x ≠ c := fun hc => h (hc ▸ List.mem_cons_self x t)
    rw [splitAllC, if_neg hx, ih (fun hc => h (List.mem_cons_of_mem x hc))]

theorem splitAllC_append_sep {c : Char} {p r : Str} (h : c ∉ p) :
    splitAllC c (p ++ c :: r) = p :: splitAllC c r := by
  induction p with
  | nil => simp [splitAllC]
  | cons x t ih =>
    have hx : x ≠ c := fun hc => h (hc ▸ List.mem_cons_self x t)
    rw [List.cons_append, splitAllC, if_neg hx,
      ih (fun hc => h (List.mem_cons_of_mem x hc))]

theorem splitAllC_joinAmp : ∀ {ps : List Str}, ps ≠ [] → (∀ p ∈ ps, '&' ∉ p) →
    splitAllC '&' (joinAmp ps) = ps := by
  intro ps
  induction ps with
  | nil => intro h; cases h rfl
  | cons p q ih =>
    intro _ hmem
    cases q with
    | nil =>
      rw [joinAmp]
      exact splitAllC_no_sep (hmem p (List.mem_cons_self _ _))
    | cons p2 r =>
      rw [joinAmp, splitAllC_append_sep (hmem p (List.mem_cons_self _ _))]
      rw [show joinAmp (p2 :: r) = joinAmp (p2 :: r) from rfl] at *
      congr 1
      exact ih (by simp) (fun x hx => hmem x (List.mem_cons_of_mem _ hx))

theorem encChar_ne_nil (c : Char) : encChar c ≠ [] := by
  unfold encChar
  by_cases hsp : c = ' '
  · simp [hsp]
  · rw [if_neg hsp]
    by_cases hsafe : safeChar c
    · simp [hsafe]
    · rw [if_neg hsafe]
      unfold utf8Enc
      split
      · simp [pctByte]
      · split
        · simp [pctByte]
        · split
          · simp [pctByte]
          · simp [pctByte]

theorem quotePlus_ne_nil {v : Str} (h : v ≠ []) : quotePlus v ≠ [] := by
  cases v with
  | nil => cases h rfl
  | cons c t =>
    unfold quotePlus
    rw [List.flatMap_cons]
    intro hc
    rcases List.append_eq_nil.mp hc with ⟨h1, _⟩
    exact encChar_ne_nil c h1

theorem pbAux_ne_nil : ∀ (s pend : Str), pend.length ≤ 2 → (s ≠ [] ∨ pend ≠ []) →
    pbAux s pend ≠ [] := by
  intro s
  induction s with
  | nil =>
    intro pend _ hne
    rcases hne with h | h
    · cases h rfl
    · rw [pbAux]
      intro hmap
      exact h (List.map_eq_nil_iff.mp hmap)
  | cons c t ih =>
    intro pend hlen _
    match pend with
    | [] =>
      rw [pbAux]
      by_cases hc : c = '%'
      · rw [if_pos hc]
        exact ih [c] (by simp) (Or.inr (by simp))
      · rw [if_neg hc]
        simp
    | [p] =>
      rw [pbAux]
      by_cases hhex : (hexVal c).isSome
      · rw [if_pos hhex]
        exact ih [p, c] (by simp) (Or.inr (by simp))
      · rw [if_neg hhex]
        by_cases hc : c = '%' <;> simp [hc]
    | [p, h] =>
      rw [pbAux]
      cases hexVal h <;> cases hexVal c <;> by_cases hc : c = '%' <;> simp [hc]
    | p :: h :: x :: r => simp at hlen

theorem pctBytes_head_ne_nil {c : Char} (t : Str) : pctBytes (c :: t) ≠ [] :=
  pbAux_ne_nil (c :: t) [] (by simp) (Or.inl (by simp))

theorem utf8Dec_cons_ne_nil (b : Nat) (t : List Nat) : utf8Dec (b :: t) ≠ [] := by
  show utf8DecF (b :: t).length (b :: t) ≠ []
  rw [List.length_cons, utf8DecF]
  simp

theorem utf8Dec_ne_nil {l : List Nat} (h : l ≠ []) : utf8Dec l ≠ [] := by
  cases l with
  | nil => cases h rfl
  | cons b t => exact utf8Dec_cons_ne_nil b t

theorem unq_cons_ne_nil (c : Char) (t : Str) : unq (c :: t) ≠ [] := by
  rw [unq_cons]
  by_cases hc : isAsciiC c
  · rw [if_pos hc]
    intro h
    rcases List.append_eq_nil.mp h with ⟨h1, _⟩
    rw [List.map_eq_nil_iff] at h1
    exact utf8Dec_ne_nil (pctBytes_head_ne_nil (t.takeWhile isAsciiC)) h1
  · rw [if_neg hc]
    simp

theorem unquotePlus_ne_nil {v : Str} (h : v ≠ []) : unquotePlus v ≠ [] := by
  cases v with
  | nil => cases h rfl
  | cons c t =>
    unfold unquotePlus
    rw [List.map_cons]
    exact unq_cons_ne_nil _ _

/-- The pairs in the order urlencode emits them. -/
def flatPairs (d : List (Str × List Str)) : List (Str × Str) :=
  d.flatMap (fun kv => kv.2.map (fun v => (kv.1, v)))

theorem addPair_not_mem {acc : List (Str × List Str)} {k : Str} (v : Str)
    (h : k ∉ keysOf acc) : addPair acc k v = acc ++ [(k, [v])] := by
  induction acc with
  | nil => rfl
  | cons kv t ih =>
    obtain ⟨k1, vs⟩ := kv
    have hk1 : k1 ≠ k := by
      intro he
      exact h (he ▸ List.mem_cons_self k1 (keysOf t))
    rw [addPair, if_neg hk1, List.cons_append,
      ih (fun hm => h (List.mem_cons_of_mem k1 hm))]

theorem addPair_append_last {acc : List (Str × List Str)} {k : Str} (vs : List Str) (v : Str)
    (h : k ∉ keysOf acc) : addPair (acc ++ [(k, vs)]) k v = acc ++ [(k, vs ++ [v])] := by
  induction acc with
  | nil => simp [addPair]
  | cons kv t ih =>
    obtain ⟨k1, vs1⟩ := kv
    have hk1 : k1 ≠ k := by
      intro he
      exact h (he ▸ List.mem_cons_self k1 (keysOf t))
    rw [List.cons_append, addPair, if_neg hk1,
      ih (fun hm => h (List.mem_cons_of_mem k1 hm))]
    rfl

theorem fold_block_aux {k : Str} (ws : List Str) (rest : List (Str × Str))
    {acc : List (Str × List Str)} (us : List Str) (h : k ∉ keysOf acc) :
    List.foldl (fun acc kv => addPair acc kv.1 kv.2) (acc ++ [(k, us)])
        (ws.map (fun v => (k, v)) ++ rest) =
      List.foldl (fun acc kv => addPair acc kv.1 kv.2) (acc ++ [(k, us ++ ws)]) rest := by
  induction ws generalizing us with
  | nil => simp
  | cons w ws2 ih =>
    rw [List.map_cons, List.cons_append, List.foldl_cons]
    have : addPair (acc ++ [(k, us)]) k w = acc ++ [(k, us ++ [w])] :=
      addPair_append_last us w h
    rw [this, ih (us ++ [w])]
    rw [List.append_assoc]
    rfl

theorem fold_flatPairs : ∀ (d : List (Str × List Str)) (acc : List (Str × List Str)),
    (∀ x ∈ keysOf d, x ∉ keysOf acc) → (keysOf d).Nodup → (∀ kv ∈ d, kv.2 ≠ []) →
    List.foldl (fun acc kv => addPair acc kv.1 kv.2) acc (flatPairs d) = acc ++ d := by
  intro d
  induction d with
  | nil => intro acc _ _ _; simp [flatPairs]
  | cons kv d2 ih =>
    intro acc hdisj hnodup hvs
    obtain ⟨k, vs⟩ := kv
    have hkacc : k ∉ keysOf acc := hdisj k (List.mem_cons_self _ _)
    rw [flatPairs, List.flatMap_cons]
    cases hv : vs with
    | nil =>
      exact absurd rfl (hv ▸ hvs (k, vs) (List.mem_cons_self _ _))
    | cons w ws =>
      rw [List.map_cons, List.cons_append, List.foldl_cons]
      have h1 : addPair acc k w = acc ++ [(k, [w])] := addPair_not_mem w hkacc
      rw [h1, fold_block_aux ws _ [w] hkacc]
      have hkeys : keysOf (acc ++ [(k, [w] ++ ws)]) = keysOf acc ++ [k] := by
        simp [keysOf]
      have hnodup2 : (keysOf d2).Nodup := (List.nodup_cons.mp hnodup).2
      have hknotind2 : k ∉ keysOf d2 := (List.nodup_cons.mp hnodup).1
      have hdisj2 : ∀ x ∈ keysOf d2, x ∉ keysOf (acc ++ [(k, [w] ++ ws)]) := by
        intro x hx
        rw [hkeys, List.mem_append, List.mem_singleton]
        rintro (hxa | hxk)
        · exact hdisj x (List.mem_cons_of_mem _ hx) hxa
        · exact hknotind2 (hxk ▸ hx)
      have hvs2 : ∀ kv2 ∈ d2, kv2.2 ≠ [] := fun kv2 h2 => hvs kv2 (List.mem_cons_of_mem _ h2)
      rw [show (flatPairs d2 : List (Str × Str)) =
        d2.flatMap (fun kv => kv.2.map (fun v => (kv.1, v))) from rfl] at *
      rw [ih _ hdisj2 hnodup2 hvs2]
      simp

/-- The field parser inside parse_qsl. -/
def qslField (field : Str) : Option (Str × Str) :=
  if field = [] then none
  else
    match breakFirst '=' field with
    | none => none
    | some (k, v) => if v = [] then none else some (unquotePlus k, unquotePlus v)

theorem parseQsl_eq_filterMap (q : Str) :
    parseQsl q = (splitAllC '&' q).filterMap qslField := rfl

theorem qslField_piece (k v : Str) (hv : v ≠ []) :
    qslField (quotePlus k ++ '=' :: quotePlus v) = some (k, v) := by
  unfold qslField
  have hne : quotePlus k ++ '=' :: quotePlus v ≠ [] := by
    intro h
    rcases List.append_eq_nil.mp h with ⟨_, h2⟩
    cases h2
  rw [if_neg hne]
  have heq : '=' ∉ quotePlus k :=
    not_mem_quotePlus (by decide) k
  rw [breakFirst_append heq]
  show (if quotePlus v = [] then none
    else some (unquotePlus (quotePlus k), unquotePlus (quotePlus v))) = some (k, v)
  rw [if_neg (quotePlus_ne_nil hv), unquotePlus_quotePlus, unquotePlus_quotePlus]

/-- parse_qs inverts urlencode on well-formed dicts. -/
theorem parse_qs_urlencodeF {d : List (Str × List Str)} (hnodup : (keysOf d).Nodup)
    (hvs : ∀ kv ∈ d, kv.2 ≠ []) (hstr : ∀ kv ∈ d, ∀ v ∈ kv.2, v ≠ []) :
    parse_qs (urlencodeF d) = d := by
  cases d with
  | nil => rfl
  | cons kv0 d2 =>
    unfold parse_qs urlencodeF
    rw [parseQsl_eq_filterMap]
    set pieces := (kv0 :: d2).flatMap
      (fun kv => kv.2.map (fun v => quotePlus kv.1 ++ '=' :: quotePlus v)) with hp
    have hpieces_ne : pieces ≠ [] := by
      rw [hp, List.flatMap_cons]
      intro h
      rcases List.append_eq_nil.mp h with ⟨h1, _⟩
      rw [List.map_eq_nil_iff] at h1
      exact hvs kv0 (List.mem_cons_self _ _) h1
    have hpieces_noamp : ∀ p ∈ pieces, '&' ∉ p := by
      intro p hpmem
      rw [hp, List.mem_flatMap] at hpmem
      obtain ⟨kv, _, hpkv⟩ := hpmem
      rw [List.mem_map] at hpkv
      obtain ⟨v, _, hveq⟩ := hpkv
      subst hveq
      intro hamp
      rw [List.mem_append, List.mem_cons] at hamp
      have hq : ¬qChar '&' := by decide
      rcases hamp with h | h | h
      · exact hq (quotePlus_mem _ h)
      · cases h
      · exact hq (quotePlus_mem _ h)
    rw [splitAllC_joinAmp hpieces_ne hpieces_noamp]
    have hfm : ∀ (e : List (Str × List Str)), (∀ kv ∈ e, ∀ v ∈ kv.2, v ≠ []) →
        (e.flatMap (fun kv => kv.2.map
          (fun v => quotePlus kv.1 ++ '=' :: quotePlus v))).filterMap qslField =
        flatPairs e := by
      intro e
      induction e with
      | nil => intro _; rfl
      | cons kv e2 ihe =>
        intro hstr2
        rw [List.flatMap_cons, List.filterMap_append, flatPairs, List.flatMap_cons]
        congr 1
        · obtain ⟨k, vs⟩ := kv
          have hvstr : ∀ v ∈ vs, v ≠ [] := fun v hv =>
            hstr2 (k, vs) (List.mem_cons_self _ _) v hv
          clear hstr2 ihe
          induction vs with
          | nil => rfl
          | cons w ws ihw =>
            rw [List.map_cons, List.map_cons, List.filterMap_cons]
            rw [qslField_piece k w (hvstr w (List.mem_cons_self _ _))]
            rw [ihw (fun v hv => hvstr v (List.mem_cons_of_mem _ hv))]
        · exact ihe (fun kv2 h2 => hstr2 kv2 (List.mem_cons_of_mem _ h2))
    rw [hp, hfm (kv0 :: d2) hstr]
    have := fold_flatPairs (kv0 :: d2) [] (by simp [keysOf]) hnodup hvs
    rw [this, List.nil_append]


/-!
urllib.parse urlsplit/urlunsplit/urlparse/urlunparse, and
normalize_url from hermes_discoverer.py.  The model follows the CPython
algorithm: optional scheme before the first colon (when the candidate
is non-empty, starts with an ASCII letter and consists of scheme
characters, it is split off and lower-cased), a netloc after a double
slash up to the next slash, question mark or hash (a ValueError is
raised when exactly one of the two square brackets appears in the
netloc), the fragment after the first hash, the query after the first
question mark, and path parameters after the first semicolon of the
last path segment.  The WHATWG control-character pre-stripping of very
recent CPython is not modelled; it touches none of the characters the
discoverer handles.
-/

/-- The six components of urlparse. -/
structure UrlParts where
  scheme : Str
  netloc : Str
  path : Str
  params : Str
  query : Str
  fragment : Str
deriving DecidableEq

/-- The characters allowed in a URL scheme: ASCII letters and digits,
plus, hyphen, dot. -/
def schemeChar (c : Char) : Bool :=
  (48 ≤ c.toNat && c.toNat ≤ 57) || (65 ≤ c.toNat && c.toNat ≤ 90) ||
    (97 ≤ c.toNat && c.toNat ≤ 122) || c = '+' || c = '-' || c = '.'

/-- ASCII letter. -/
def isAlphaC (c : Char) : Bool :=
  (65 ≤ c.toNat && c.toNat ≤ 90) || (97 ≤ c.toNat && c.toNat ≤ 122)

/-- The urlsplit condition on the text before the first colon. -/
def schemeOK : Str → Bool
  | [] => false
  | c :: t => isAlphaC c && (c :: t).all schemeChar

/-- Scheme extraction of urlsplit. -/
def schemeSplit (u : Str) : Str × Str :=
  match breakFirst ':' u with
  | none => ([], u)
  | some (a, b) => if schemeOK a then (a.map lowerC, b) else ([], u)

/-- A character that ends the netloc. -/
def notDelim (c : Char) : Bool := !(c = '/' || c = '?' || c = '#')

/-- Netloc extraction of urlsplit. -/
def netlocSplit (u : Str) : Str × Str :=
  if u.take 2 = ['/', '/'] then
    ((u.drop 2).takeWhile notDelim, (u.drop 2).dropWhile notDelim)
  else ([], u)

/-- The urlsplit bracket sanity check on the netloc: exactly one of
the two square brackets occurs. -/
def bracketBad (n : Str) : Bool := (decide ('[' ∈ n)) != (decide (']' ∈ n))

/-- Split a path at the last slash: p = before ++ slash ++ seg with no
slash in seg. -/
def splitLastSlash (p : Str) : Option (Str × Str) :=
  match breakFirst '/' p.reverse with
  | none => none
  | some (x, y) => some (y.reverse, x.reverse)

/-- The _splitparams helper of urlparse; the caller guarantees a
semicolon occurs in p. -/
def splitParams (p : Str) : Str × Str :=
  match splitLastSlash p with
  | some (a, seg) =>
    match breakFirst ';' seg with
    | none => (p, [])
    | some (x, y) => (a ++ '/' :: x, y)
  | none =>
    match breakFirst ';' p with
    | none => (p, [])
    | some (x, y) => (x, y)

/-- The path-parameter split at the urlparse level: only applied when
a semicolon occurs in the path portion. -/
def ppSplit (pp : Str) : Str × Str := if ';' ∈ pp then splitParams pp else (pp, [])

/-- The fragment split of urlsplit: everything after the first hash. -/
def fragSplit (r : Str) : Str × Str :=
  match breakFirst '#' r with
  | none => (r, [])
  | some (a, b) => (a, b)

/-- The query split of urlsplit: everything after the first question
mark. -/
def qSplit (r : Str) : Str × Str :=
  match breakFirst '?' r with
  | none => (r, [])
  | some (a, b) => (a, b)

/-- urllib.parse.urlparse; none models the ValueError raised on a
netloc with unbalanced square brackets. -/
def urlparseF (u : Str) : Option UrlParts :=
  let s1 := schemeSplit u
  let s2 := netlocSplit s1.2
  if bracketBad s2.1 then none
  else
    let s3 := fragSplit s2.2
    let s4 := qSplit s3.1
    let s5 := ppSplit s4.1
    some ⟨s1.1, s2.1, s5.1, s5.2, s4.2, s3.2⟩

/-- urllib.parse.urlunsplit. -/
def urlunsplitF (sch nl u q f : Str) : Str :=
  let u1 := if nl ≠ [] ∨ u.take 2 = ['/', '/'] then
      '/' :: '/' :: (nl ++ (if u ≠ [] ∧ u.take 1 ≠ ['/'] then '/' :: u else u))
    else u
  let u2 := if sch ≠ [] then sch ++ ':' :: u1 else u1
  let u3 := if q ≠ [] then u2 ++ '?' :: q else u2
  if f ≠ [] then u3 ++ '#' :: f else u3

/-- urllib.parse.urlunparse. -/
def urlunparseF (c : UrlParts) : Str :=
  urlunsplitF c.scheme c.netloc
    (if c.params ≠ [] then c.path ++ ';' :: c.params else c.path) c.query c.fragment

/-- Python netloc.replace applied to the literal www. pattern:
leftmost non-overlapping occurrences are removed. -/
def replaceWWW : Str → Str
  | 'w' :: 'w' :: 'w' :: '.' :: t => replaceWWW t
  | c :: t => c :: replaceWWW t
  | [] => []

/-- The tracking-parameter prefix blocklist of normalize_url. -/
def trackKey (k : Str) : Bool :=
  (ofStr "utm_").isPrefixOf k || (ofStr "fbclid").isPrefixOf k ||
    (ofStr "gclid").isPrefixOf k

/-- normalize_url from hermes_discoverer.py: parse the URL, drop query
parameters whose key starts with a tracking prefix, strip www. from
the netloc, re-encode the query and reassemble; any parse error
returns the input unchanged. -/
def normalize_url (u : Str) : Str :=
  match urlparseF u with
  | none => u
  | some c =>
    let fd := (parse_qs c.query).filter (fun kv => !trackKey kv.1)
    urlunparseF ⟨c.scheme, replaceWWW c.netloc, c.path, c.params, urlencodeF fd, c.fragment⟩


/-!
Support lemmas for the urlparse/urlunparse round trip.
-/

theorem breakFirst_eq_some {c : Char} : ∀ {s a b : Str},
    breakFirst c s = some (a, b) → s = a ++ c :: b ∧ c ∉ a := by
  intro s
  induction s with
  | nil => intro a b h; cases h
  | cons x t ih =>
    intro a b h
    rw [breakFirst] at h
    by_cases hx : x = c
    · rw [if_pos hx] at h
      cases h
      subst hx
      exact ⟨rfl, by simp⟩
    · rw [if_neg hx] at h
      cases hb : breakFirst c t with
      | none => rw [hb] at h; cases h
      | some q =>
        rw [hb, Option.map_some'] at h
        cases h
        obtain ⟨h1, h2⟩ := ih hb
        constructor
        · rw [List.cons_append, ← h1]
        · rw [List.mem_cons]
          rintro (hc | hc)
          · exact hx hc.symm
          · exact h2 hc

theorem breakFirst_append_right {c : Char} {p : Str} (y : Str) (h : c ∉ p) :
    breakFirst c (p ++ y) = (breakFirst c y).map (fun q => (p ++ q.1, q.2)) := by
  induction p with
  | nil => simp
  | cons x t ih =>
    have hx : x ≠ c := fun hc => h (hc ▸ List.mem_cons_self x t)
    rw [List.cons_append, breakFirst, if_neg hx, ih (fun hc => h (List.mem_cons_of_mem x hc))]
    cases breakFirst c y <;> simp

theorem takeWhile_append_all {p : Char → Bool} {n : Str} (r : Str)
    (h : ∀ x ∈ n, p x = true) : (n ++ r).takeWhile p = n ++ r.takeWhile p := by
  induction n with
  | nil => simp
  | cons x t ih =>
    rw [List.cons_append, List.takeWhile_cons, if_pos (h x (List.mem_cons_self x t)),
      ih (fun y hy => h y (List.mem_cons_of_mem x hy)), List.cons_append]

theorem dropWhile_append_all {p : Char → Bool} {n : Str} (r : Str)
    (h : ∀ x ∈ n, p x = true) : (n ++ r).dropWhile p = r.dropWhile p := by
  induction n with
  | nil => simp
  | cons x t ih =>
    rw [List.cons_append, List.dropWhile_cons, if_pos (h x (List.mem_cons_self x t)),
      ih (fun y hy => h y (List.mem_cons_of_mem x hy))]

theorem takeWhile_head_false {p : Char → Bool} : ∀ {r : Str},
    (∀ x ∈ r.take 1, p x = false) → r.takeWhile p = [] := by
  intro r
  cases r with
  | nil => intro _; rfl
  | cons x t =>
    intro h
    rw [List.takeWhile_cons, if_neg]
    rw [h x (by simp)]
    simp

theorem dropWhile_head_false {p : Char → Bool} : ∀ {r : Str},
    (∀ x ∈ r.take 1, p x = false) → r.dropWhile p = r := by
  intro r
  cases r with
  | nil => intro _; rfl
  | cons x t =>
    intro h
    rw [List.dropWhile_cons, if_neg]
    rw [h x (by simp)]
    simp

theorem toNat_ofNat_valid {n : Nat} (h : n.isValidChar) : (Char.ofNat n).toNat = n := by
  unfold Char.ofNat
  rw [dif_pos h]
  rfl

theorem lowerC_eq_of_not_upper {c : Char} (h : ¬(65 ≤ c.toNat ∧ c.toNat ≤ 90)) :
    lowerC c = c := by
  unfold lowerC
  rw [if_neg h]

theorem lowerC_toNat_upper {c : Char} (h : 65 ≤ c.toNat ∧ c.toNat ≤ 90) :
    (lowerC c).toNat = c.toNat + 32 := by
  unfold lowerC
  rw [if_pos h]
  exact toNat_ofNat_valid (Or.inl (by omega))

theorem lowerC_idem (c : Char) : lowerC (lowerC c) = lowerC c := by
  by_cases h : 65 ≤ c.toNat ∧ c.toNat ≤ 90
  · have ht := lowerC_toNat_upper h
    exact lowerC_eq_of_not_upper (by omega)
  · rw [lowerC_eq_of_not_upper h, lowerC_eq_of_not_upper h]

theorem lowerC_schemeChar {c : Char} (h : schemeChar c = true) :
    schemeChar (lowerC c) = true := by
  by_cases hu : 65 ≤ c.toNat ∧ c.toNat ≤ 90
  · have ht := lowerC_toNat_upper hu
    unfold schemeChar
    simp only [Bool.or_eq_true, Bool.and_eq_true, decide_eq_true_eq]
    left; left; left; right
    omega
  · rw [lowerC_eq_of_not_upper hu]
    exact h

theorem lowerC_alpha {c : Char} (h : isAlphaC c = true) : isAlphaC (lowerC c) = true := by
  by_cases hu : 65 ≤ c.toNat ∧ c.toNat ≤ 90
  · have ht := lowerC_toNat_upper hu
    unfold isAlphaC
    simp only [Bool.or_eq_true, Bool.and_eq_true, decide_eq_true_eq]
    right
    omega
  · rw [lowerC_eq_of_not_upper hu]
    exact h

theorem schemeOK_map_lowerC {a : Str} (h : schemeOK a = true) :
    schemeOK (a.map lowerC) = true := by
  cases a with
  | nil => cases h
  | cons c t =>
    rw [schemeOK] at h
    rw [List.map_cons, schemeOK]
    rw [Bool.and_eq_true] at h ⊢
    obtain ⟨h1, h2⟩ := h
    refine ⟨lowerC_alpha h1, ?_⟩
    rw [← List.map_cons]
    rw [List.all_eq_true] at h2 ⊢
    intro x hx
    rw [List.mem_map] at hx
    obtain ⟨y, hy, hxy⟩ := hx
    subst hxy
    exact lowerC_schemeChar (h2 y hy)

theorem map_lowerC_idem (a : Str) : (a.map lowerC).map lowerC = a.map lowerC := by
  rw [List.map_map]
  apply List.map_congr_left
  intro c _
  exact lowerC_idem c

theorem colon_not_schemeChar : schemeChar ':' = false := by decide

theorem schemeOK_colon_not_mem {a : Str} (h : schemeOK a = true) : ':' ∉ a := by
  cases a with
  | nil => simp
  | cons c t =>
    rw [schemeOK, Bool.and_eq_true, List.all_eq_true] at h
    intro hmem
    have := h.2 ':' hmem
    rw [colon_not_schemeChar] at this
    cases this

theorem mem_replaceWWW_sub {x : Char} : ∀ {s : Str}, x ∈ replaceWWW s → x ∈ s := by
  intro s
  induction s using replaceWWW.induct with
  | case1 t ih =>
    intro h
    rw [replaceWWW] at h
    have := ih h
    simp [this]
  | case2 c t hne ih =>
    intro h
    rw [replaceWWW] at h
    · rw [List.mem_cons] at h ⊢
      rcases h with h | h
      · exact Or.inl h
      · exact Or.inr (ih h)
    · exact hne
  | case3 =>
    intro h
    cases h

theorem mem_replaceWWW_iff {x : Char} (hw : x ≠ 'w') (hd : x ≠ '.') :
    ∀ {s : Str}, x ∈ replaceWWW s ↔ x ∈ s := by
  intro s
  induction s using replaceWWW.induct with
  | case1 t ih =>
    rw [replaceWWW]
    rw [ih]
    simp only [List.mem_cons]
    constructor
    · intro h
      tauto
    · rintro (h | h | h | h | h)
      · exact absurd h hw
      · exact absurd h hw
      · exact absurd h hw
      · exact absurd h hd
      · exact h
  | case2 c t hne ih =>
    rw [replaceWWW]
    · rw [List.mem_cons, List.mem_cons, ih]
    · exact hne
  | case3 => rfl


/-- The absence of a semicolon in the last slash-separated segment of
a path, the invariant _splitparams leaves on the path component. -/
def lastSegNoSemi (p : Str) : Prop :=
  match splitLastSlash p with
  | some q => ';' ∉ q.2
  | none => ';' ∉ p

theorem splitLastSlash_none_iff {p : Str} : splitLastSlash p = none ↔ '/' ∉ p := by
  unfold splitLastSlash
  cases hb : breakFirst '/' p.reverse with
  | none =>
    have := breakFirst_eq_none.mp hb
    rw [List.mem_reverse] at this
    simp [this]
  | some q =>
    obtain ⟨h1, _⟩ := breakFirst_eq_some hb
    simp only [Option.map_some']
    constructor
    · intro h; cases h
    · intro hmem
      exfalso
      apply hmem
      rw [← List.mem_reverse, h1]
      simp

theorem splitLastSlash_append {a seg : Str} (h : '/' ∉ seg) :
    splitLastSlash (a ++ '/' :: seg) = some (a, seg) := by
  unfold splitLastSlash
  have hrev : (a ++ '/' :: seg).reverse = seg.reverse ++ '/' :: a.reverse := by simp
  rw [hrev, breakFirst_append (by simpa using h)]
  simp

theorem splitLastSlash_spec {p a seg : Str} (h : splitLastSlash p = some (a, seg)) :
    p = a ++ '/' :: seg ∧ '/' ∉ seg := by
  unfold splitLastSlash at h
  cases hb : breakFirst '/' p.reverse with
  | none => rw [hb] at h; cases h
  | some q =>
    rw [hb] at h
    cases h
    obtain ⟨h1, h2⟩ := breakFirst_eq_some hb
    constructor
    · have : p.reverse.reverse = (q.1 ++ '/' :: q.2).reverse := by rw [← h1]
      simpa using this
    · intro hmem
      rw [List.mem_reverse] at hmem
      exact h2 hmem

theorem splitParams_ls_none {pp x y : Str} (hls : splitLastSlash pp = none)
    (hbf : breakFirst ';' pp = some (x, y)) : splitParams pp = (x, y) := by
  unfold splitParams
  rw [hls, hbf]

theorem splitParams_ls_none_none {pp : Str} (hls : splitLastSlash pp = none)
    (hbf : breakFirst ';' pp = none) : splitParams pp = (pp, []) := by
  unfold splitParams
  rw [hls, hbf]

theorem splitParams_ls_some_none {pp a seg : Str} (hls : splitLastSlash pp = some (a, seg))
    (hbf : breakFirst ';' seg = none) : splitParams pp = (pp, []) := by
  unfold splitParams
  rw [hls]
  simp only []
  rw [hbf]

theorem splitParams_ls_some_some {pp a seg x y : Str} (hls : splitLastSlash pp = some (a, seg))
    (hbf : breakFirst ';' seg = some (x, y)) : splitParams pp = (a ++ '/' :: x, y) := by
  unfold splitParams
  rw [hls]
  simp only []
  rw [hbf]

theorem ppSplit_parse (pp : Str) :
    ((ppSplit pp).2 = [] ∧ (ppSplit pp).1 = pp ∨ (ppSplit pp).1 ++ ';' :: (ppSplit pp).2 = pp) ∧
      lastSegNoSemi (ppSplit pp).1 ∧ '/' ∉ (ppSplit pp).2 := by
  unfold ppSplit
  by_cases hs : ';' ∈ pp
  · rw [if_pos hs]
    cases hls : splitLastSlash pp with
    | none =>
      have hnos : '/' ∉ pp := splitLastSlash_none_iff.mp hls
      cases hbf : breakFirst ';' pp with
      | none =>
        exact absurd hs (breakFirst_eq_none.mp hbf)
      | some q =>
        obtain ⟨x, y⟩ := q
        rw [splitParams_ls_none hls hbf]
        obtain ⟨h1, h2⟩ := breakFirst_eq_some hbf
        refine ⟨Or.inr h1.symm, ?_, ?_⟩
        · have hx : '/' ∉ x := fun hm => hnos (by rw [h1]; simp [hm])
          unfold lastSegNoSemi
          rw [splitLastSlash_none_iff.mpr hx]
          exact h2
        · intro hm
          exact hnos (by rw [h1]; simp [hm])
    | some aseg =>
      obtain ⟨a, seg⟩ := aseg
      obtain ⟨hp1, hp2⟩ := splitLastSlash_spec hls
      cases hbf : breakFirst ';' seg with
      | none =>
        have hni : ';' ∉ seg := breakFirst_eq_none.mp hbf
        rw [splitParams_ls_some_none hls hbf]
        refine ⟨Or.inl ⟨rfl, rfl⟩, ?_, by simp⟩
        unfold lastSegNoSemi
        rw [hp1, splitLastSlash_append hp2]
        exact hni
      | some q =>
        obtain ⟨x, y⟩ := q
        rw [splitParams_ls_some_some hls hbf]
        obtain ⟨h1, h2⟩ := breakFirst_eq_some hbf
        have hsl_x : '/' ∉ x := fun hm => hp2 (by rw [h1]; simp [hm])
        have hsl_y : '/' ∉ y := fun hm => hp2 (by rw [h1]; simp [hm])
        refine ⟨Or.inr ?_, ?_, hsl_y⟩
        · rw [hp1, h1]
          simp
        · unfold lastSegNoSemi
          rw [splitLastSlash_append hsl_x]
          exact h2
  · rw [if_neg hs]
    refine ⟨Or.inl ⟨rfl, rfl⟩, ?_, by simp⟩
    unfold lastSegNoSemi
    cases hls : splitLastSlash pp with
    | none => exact hs
    | some aseg =>
      obtain ⟨a, seg⟩ := aseg
      obtain ⟨hp1, _⟩ := splitLastSlash_spec hls
      intro hm
      exact hs (by rw [hp1]; simp [hm])

theorem ppSplit_of_parts_nil {p : Str} (hseg : lastSegNoSemi p) : ppSplit p = (p, []) := by
  unfold ppSplit
  by_cases hs : ';' ∈ p
  · rw [if_pos hs]
    unfold lastSegNoSemi at hseg
    cases hls : splitLastSlash p with
    | none =>
      rw [hls] at hseg
      exact absurd hs hseg
    | some aseg =>
      obtain ⟨a, seg⟩ := aseg
      rw [hls] at hseg
      exact splitParams_ls_some_none hls (breakFirst_of_not_mem hseg)
  · rw [if_neg hs]

theorem ppSplit_of_parts {p pr : Str} (hseg : lastSegNoSemi p) (hpr : '/' ∉ pr) :
    ppSplit (p ++ ';' :: pr) = (p, pr) := by
  unfold ppSplit
  rw [if_pos (by simp)]
  unfold lastSegNoSemi at hseg
  by_cases hsl : '/' ∈ p
  · cases hls : splitLastSlash p with
    | none => exact absurd hsl (splitLastSlash_none_iff.mp hls)
    | some aseg =>
      obtain ⟨a, seg⟩ := aseg
      rw [hls] at hseg
      obtain ⟨hp1, hp2⟩ := splitLastSlash_spec hls
      have hny : '/' ∉ seg ++ ';' :: pr := by
        intro hm
        rw [List.mem_append, List.mem_cons] at hm
        rcases hm with hm | hm | hm
        · exact hp2 hm
        · cases hm
        · exact hpr hm
      have ha : p ++ ';' :: pr = a ++ '/' :: (seg ++ ';' :: pr) := by
        rw [hp1]
        simp
      rw [ha, splitParams_ls_some_some (splitLastSlash_append hny)
        (breakFirst_append hseg), ← hp1]
  · have hnop : '/' ∉ p ++ ';' :: pr := by
      intro hm
      rw [List.mem_append, List.mem_cons] at hm
      rcases hm with hm | hm | hm
      · exact hsl hm
      · cases hm
      · exact hpr hm
    rw [splitLastSlash_none_iff.mpr hsl] at hseg
    exact splitParams_ls_none (splitLastSlash_none_iff.mpr hnop) (breakFirst_append hseg)


/-- The path-plus-parameters portion urlunparse rebuilds. -/
def pathFull (d : UrlParts) : Str :=
  if d.params ≠ [] then d.path ++ ';' :: d.params else d.path

/-- The netloc-adjusted url portion of urlunsplit. -/
def u1of (nl u : Str) : Str :=
  if nl ≠ [] ∨ u.take 2 = ['/', '/'] then
    '/' :: '/' :: (nl ++ (if u ≠ [] ∧ u.take 1 ≠ ['/'] then '/' :: u else u))
  else u

/-- The query portion appended by urlunsplit. -/
def qpart (q : Str) : Str := if q ≠ [] then '?' :: q else []

/-- The fragment portion appended by urlunsplit. -/
def fpart (f : Str) : Str := if f ≠ [] then '#' :: f else []

theorem urlunsplitF_formula (sch nl u q f : Str) :
    urlunsplitF sch nl u q f =
      (if sch ≠ [] then sch ++ ':' :: u1of nl u else u1of nl u) ++ qpart q ++ fpart f := by
  unfold urlunsplitF u1of qpart fpart
  by_cases hq : q ≠ [] <;> by_cases hf : f ≠ [] <;> by_cases hs : sch ≠ [] <;>
    simp [hq, hf, hs, List.append_assoc]

theorem urlunparseF_formula (d : UrlParts) :
    urlunparseF d =
      (if d.scheme ≠ [] then d.scheme ++ ':' :: u1of d.netloc (pathFull d)
        else u1of d.netloc (pathFull d)) ++ qpart d.query ++ fpart d.fragment := by
  unfold urlunparseF pathFull
  rw [urlunsplitF_formula]

/-- The string after scheme and netloc in the reassembled URL when no
netloc part is emitted. -/
def assembleTail (d : UrlParts) : Str := pathFull d ++ qpart d.query ++ fpart d.fragment

/-- Well-formedness of rewritten urlparse output: exactly the facts
the round trip through urlunparse and urlparse needs. -/
structure PartsWF (d : UrlParts) : Prop where
  scheme_ok : d.scheme = [] ∨ (schemeOK d.scheme = true ∧ d.scheme.map lowerC = d.scheme)
  netloc_clean : ∀ x ∈ d.netloc, notDelim x = true
  netloc_brackets : bracketBad d.netloc = false
  path_hash : '#' ∉ d.path
  path_q : '?' ∉ d.path
  params_hash : '#' ∉ d.params
  params_q : '?' ∉ d.params
  params_slash : '/' ∉ d.params
  path_seg : lastSegNoSemi d.path
  query_hash : '#' ∉ d.query
  query_q : '?' ∉ d.query
  nl_path : d.netloc ≠ [] → (d.path = [] ∨ d.path.take 1 = ['/'])
  nl_path_params : d.netloc ≠ [] → d.path = [] → d.params = []
  no_scheme : d.scheme = [] → d.netloc = [] → (pathFull d).take 2 ≠ ['/', '/'] →
    schemeSplit (assembleTail d) = ([], assembleTail d)

theorem schemeSplit_some {v a b : Str} (hb : breakFirst ':' v = some (a, b)) :
    schemeSplit v = if schemeOK a then (a.map lowerC, b) else ([], v) := by
  unfold schemeSplit
  rw [hb]

theorem schemeSplit_none {v : Str} (hb : breakFirst ':' v = none) :
    schemeSplit v = ([], v) := by
  unfold schemeSplit
  rw [hb]

theorem schemeSplit_head_bad {c : Char} {rest : Str} (hna : isAlphaC c = false)
    (hnc : c ≠ ':') : schemeSplit (c :: rest) = ([], c :: rest) := by
  cases hb : breakFirst ':' (c :: rest) with
  | none => exact schemeSplit_none hb
  | some pq =>
    obtain ⟨x, y⟩ := pq
    rw [schemeSplit_some hb]
    obtain ⟨h1, _⟩ := breakFirst_eq_some hb
    cases x with
    | nil =>
      rw [List.nil_append] at h1
      injection h1 with hc _
      exact absurd hc hnc
    | cons e t =>
      rw [List.cons_append] at h1
      injection h1 with hc _
      subst hc
      rw [if_neg]
      rw [schemeOK, Bool.and_eq_true]
      rintro ⟨ha, _⟩
      rw [hna] at ha
      cases ha

theorem schemeSplit_assemble {sch : Str} (rest : Str) (hok : schemeOK sch = true)
    (hstable : sch.map lowerC = sch) :
    schemeSplit (sch ++ ':' :: rest) = (sch, rest) := by
  rw [schemeSplit_some (breakFirst_append (schemeOK_colon_not_mem hok)), if_pos hok, hstable]

theorem netlocSplit_emit {nl : Str} (rest : Str) (hnl : ∀ x ∈ nl, notDelim x = true)
    (hrest : ∀ x ∈ rest.take 1, notDelim x = false) :
    netlocSplit ('/' :: '/' :: (nl ++ rest)) = (nl, rest) := by
  unfold netlocSplit
  rw [if_pos (by simp)]
  have hd : ('/' :: '/' :: (nl ++ rest)).drop 2 = nl ++ rest := rfl
  rw [hd, takeWhile_append_all rest hnl, takeWhile_head_false hrest,
    dropWhile_append_all rest hnl, dropWhile_head_false hrest, List.append_nil]

theorem netlocSplit_noemit {u : Str} (h : u.take 2 ≠ ['/', '/']) :
    netlocSplit u = ([], u) := by
  unfold netlocSplit
  rw [if_neg h]


theorem qf_take1 (q f : Str) :
    ∀ x ∈ (qpart q ++ fpart f).take 1, x = '?' ∨ x = '#' := by
  unfold qpart fpart
  by_cases hq : q ≠ [] <;> by_cases hf : f ≠ [] <;> simp [hq, hf]

theorem take2_append_ne {a T : Str} (ha : a.take 2 ≠ ['/', '/'])
    (hT : ∀ x ∈ T.take 1, x = '?' ∨ x = '#') : (a ++ T).take 2 ≠ ['/', '/'] := by
  match a with
  | [] =>
    rw [List.nil_append]
    cases T with
    | nil => simp
    | cons c t =>
      have hc := hT c (by simp)
      intro hx
      have he : (c :: t).take 2 = c :: t.take 1 := rfl
      rw [he] at hx
      injection hx with h1 _
      rcases hc with hh | hh <;> rw [hh] at h1 <;> cases h1
  | [c] =>
    intro hx
    have he : ([c] ++ T).take 2 = c :: T.take 1 := by
      cases T <;> rfl
    rw [he] at hx
    injection hx with h1 h2
    cases T with
    | nil => cases h2
    | cons e t =>
      have hc := hT e (by simp)
      have he2 : (e :: t).take 1 = [e] := rfl
      rw [he2] at h2
      injection h2 with h3 _
      rcases hc with hh | hh <;> rw [hh] at h3 <;> cases h3
  | c1 :: c2 :: r =>
    intro hx
    apply ha
    have h1 : ((c1 :: c2 :: r) ++ T).take 2 = [c1, c2] := rfl
    have h2 : (c1 :: c2 :: r).take 2 = [c1, c2] := rfl
    rw [h2, ← h1]
    exact hx

theorem urlparseF_eq {u sch r1 nl r2 pp2 frag pp3 q2 p2 pr2 : Str}
    (h1 : schemeSplit u = (sch, r1)) (h2 : netlocSplit r1 = (nl, r2))
    (h3 : bracketBad nl = false) (h4 : fragSplit r2 = (pp2, frag))
    (h5 : qSplit pp2 = (pp3, q2)) (h6 : ppSplit pp3 = (p2, pr2)) :
    urlparseF u = some ⟨sch, nl, p2, pr2, q2, frag⟩ := by
  simp only [urlparseF, h1, h2, h3, h4, h5, h6, Bool.false_eq_true, if_false]

/-- The central round trip: urlparse inverts urlunparse on
well-formed components. -/
theorem urlparseF_unparse {d : UrlParts} (h : PartsWF d) :
    urlparseF (urlunparseF d) = some d := by
  have hpfsplit : ppSplit (pathFull d) = (d.path, d.params) := by
    unfold pathFull
    by_cases hpr : d.params ≠ []
    · rw [if_pos hpr]
      exact ppSplit_of_parts h.path_seg h.params_slash
    · rw [if_neg hpr]
      rw [not_not] at hpr
      rw [hpr]
      exact ppSplit_of_parts_nil h.path_seg
  have hpf_hash : '#' ∉ pathFull d := by
    unfold pathFull
    by_cases hpr : d.params ≠ []
    · rw [if_pos hpr]
      rw [List.mem_append, List.mem_cons]
      rintro (hm | hm | hm)
      · exact h.path_hash hm
      · cases hm
      · exact h.params_hash hm
    · rw [if_neg hpr]
      exact h.path_hash
  have hpf_q : '?' ∉ pathFull d := by
    unfold pathFull
    by_cases hpr : d.params ≠ []
    · rw [if_pos hpr]
      rw [List.mem_append, List.mem_cons]
      rintro (hm | hm | hm)
      · exact h.path_q hm
      · cases hm
      · exact h.params_q hm
    · rw [if_neg hpr]
      exact h.path_q
  have hqp_hash : '#' ∉ pathFull d ++ qpart d.query := by
    rw [List.mem_append]
    rintro (hm | hm)
    · exact hpf_hash hm
    · unfold qpart at hm
      by_cases hq : d.query ≠ []
      · rw [if_pos hq, List.mem_cons] at hm
        rcases hm with hm | hm
        · cases hm
        · exact h.query_hash hm
      · rw [if_neg hq] at hm
        cases hm
  have hfr : breakFirst '#' (pathFull d ++ qpart d.query ++ fpart d.fragment) =
      if d.fragment ≠ [] then some (pathFull d ++ qpart d.query, d.fragment) else none := by
    unfold fpart
    by_cases hf : d.fragment ≠ []
    · rw [if_pos hf, if_pos hf, breakFirst_append hqp_hash]
    · rw [if_neg hf, if_neg hf, List.append_nil]
      exact breakFirst_of_not_mem hqp_hash
  have hqr : breakFirst '?' (pathFull d ++ qpart d.query) =
      if d.query ≠ [] then some (pathFull d, d.query) else none := by
    unfold qpart
    by_cases hq : d.query ≠ []
    · rw [if_pos hq, if_pos hq, breakFirst_append hpf_q]
    · rw [if_neg hq, if_neg hq, List.append_nil]
      exact breakFirst_of_not_mem hpf_q
  have hfs : fragSplit (pathFull d ++ qpart d.query ++ fpart d.fragment) =
      (pathFull d ++ qpart d.query, d.fragment) := by
    unfold fragSplit
    rw [hfr]
    by_cases hf : d.fragment ≠ []
    · rw [if_pos hf]
    · rw [if_neg hf]
      rw [not_not] at hf
      simp [hf, fpart]
  have hqs : qSplit (pathFull d ++ qpart d.query) = (pathFull d, d.query) := by
    unfold qSplit
    rw [hqr]
    by_cases hq : d.query ≠ []
    · rw [if_pos hq]
    · rw [if_neg hq]
      rw [not_not] at hq
      simp [hq, qpart]
  have hpfhead : d.netloc ≠ [] ∨ (pathFull d).take 2 = ['/', '/'] →
      pathFull d = [] ∨ (pathFull d).take 1 = ['/'] := by
    rintro (hn | ht)
    · rcases h.nl_path hn with hp | hp
      · left
        have hprm := h.nl_path_params hn hp
        unfold pathFull
        rw [hprm, if_neg (by simp), hp]
      · right
        unfold pathFull
        by_cases hpr : d.params ≠ []
        · rw [if_pos hpr]
          cases hp2 : d.path with
          | nil =>
            rw [hp2] at hp
            exact absurd hp (by decide)
          | cons c t =>
            rw [hp2] at hp
            have he : (c :: t).take 1 = [c] := rfl
            rw [he] at hp
            injection hp with h1 _
            subst h1
            rfl
        · rw [if_neg hpr]
          exact hp
    · right
      cases hp2 : pathFull d with
      | nil =>
        rw [hp2] at ht
        exact absurd ht (by decide)
      | cons c t =>
        rw [hp2] at ht
        have he : (c :: t).take 2 = c :: t.take 1 := rfl
        rw [he] at ht
        injection ht with h1 _
        subst h1
        rfl
  have hfix : d.netloc ≠ [] ∨ (pathFull d).take 2 = ['/', '/'] →
      u1of d.netloc (pathFull d) = '/' :: '/' :: (d.netloc ++ pathFull d) := by
    intro hc
    unfold u1of
    rw [if_pos hc, if_neg]
    rintro ⟨hne, hto⟩
    rcases hpfhead hc with hp | hp
    · exact hne hp
    · exact hto hp
  have hrestf : (pathFull d = [] ∨ (pathFull d).take 1 = ['/']) →
      ∀ x ∈ (pathFull d ++ qpart d.query ++ fpart d.fragment).take 1, notDelim x = false := by
    rintro (hp | hp) x hx
    · rw [hp, List.nil_append] at hx
      rcases qf_take1 d.query d.fragment x hx with h1 | h1 <;> rw [h1] <;> decide
    · cases hp2 : pathFull d with
      | nil =>
        rw [hp2] at hp
        exact absurd hp (by decide)
      | cons c t =>
        rw [hp2] at hp
        have he : (c :: t).take 1 = [c] := rfl
        rw [he] at hp
        injection hp with h1 _
        subst h1
        rw [hp2] at hx
        have he2 : (('/' :: t) ++ qpart d.query ++ fpart d.fragment).take 1 = ['/'] := rfl
        rw [he2, List.mem_singleton] at hx
        subst hx
        decide
  rw [urlunparseF_formula]
  by_cases hemit : d.netloc ≠ [] ∨ (pathFull d).take 2 = ['/', '/']
  · have hu1 := hfix hemit
    have hnet : netlocSplit ('/' :: '/' ::
          (d.netloc ++ (pathFull d ++ qpart d.query ++ fpart d.fragment))) =
        (d.netloc, pathFull d ++ qpart d.query ++ fpart d.fragment) :=
      netlocSplit_emit _ h.netloc_clean (hrestf (hpfhead hemit))
    by_cases hs : d.scheme ≠ []
    · rw [if_pos hs, hu1]
      have hok : schemeOK d.scheme = true ∧ d.scheme.map lowerC = d.scheme := by
        rcases h.scheme_ok with he | he
        · exact absurd he hs
        · exact he
      have harr : (d.scheme ++ ':' :: ('/' :: '/' :: (d.netloc ++ pathFull d))) ++
            qpart d.query ++ fpart d.fragment =
          d.scheme ++ ':' :: ('/' :: '/' ::
            (d.netloc ++ (pathFull d ++ qpart d.query ++ fpart d.fragment))) := by
        simp [List.append_assoc]
      rw [harr]
      exact urlparseF_eq (schemeSplit_assemble _ hok.1 hok.2) hnet h.netloc_brackets
        hfs hqs hpfsplit
    · rw [if_neg hs, hu1]
      have hsch : d.scheme = [] := not_not.mp hs
      have harr : ('/' :: '/' :: (d.netloc ++ pathFull d)) ++
            qpart d.query ++ fpart d.fragment =
          '/' :: '/' ::
            (d.netloc ++ (pathFull d ++ qpart d.query ++ fpart d.fragment)) := by
        simp [List.append_assoc]
      rw [harr]
      have hS : schemeSplit ('/' :: '/' ::
            (d.netloc ++ (pathFull d ++ qpart d.query ++ fpart d.fragment))) =
          ([], '/' :: '/' ::
            (d.netloc ++ (pathFull d ++ qpart d.query ++ fpart d.fragment))) :=
        schemeSplit_head_bad (by decide) (by decide)
      rw [← hsch] at hS
      exact urlparseF_eq hS hnet h.netloc_brackets hfs hqs hpfsplit
  · push_neg at hemit
    obtain ⟨hnl, hpf2⟩ := hemit
    have hu1 : u1of d.netloc (pathFull d) = pathFull d := by
      unfold u1of
      have hc : ¬(d.netloc ≠ [] ∨ (pathFull d).take 2 = ['/', '/']) := by
        rintro (hne | ht)
        · exact hne hnl
        · exact hpf2 ht
      rw [if_neg hc]
    have htake2 : (pathFull d ++ qpart d.query ++ fpart d.fragment).take 2 ≠ ['/', '/'] := by
      rw [List.append_assoc]
      exact take2_append_ne hpf2 (qf_take1 d.query d.fragment)
    have hnet : netlocSplit (pathFull d ++ qpart d.query ++ fpart d.fragment) =
        ([], pathFull d ++ qpart d.query ++ fpart d.fragment) := netlocSplit_noemit htake2
    rw [← hnl] at hnet
    by_cases hs : d.scheme ≠ []
    · rw [if_pos hs, hu1]
      have hok : schemeOK d.scheme = true ∧ d.scheme.map lowerC = d.scheme := by
        rcases h.scheme_ok with he | he
        · exact absurd he hs
        · exact he
      have harr : (d.scheme ++ ':' :: pathFull d) ++ qpart d.query ++ fpart d.fragment =
          d.scheme ++ ':' :: (pathFull d ++ qpart d.query ++ fpart d.fragment) := by
        simp [List.append_assoc]
      rw [harr]
      exact urlparseF_eq (schemeSplit_assemble _ hok.1 hok.2) hnet h.netloc_brackets
        hfs hqs hpfsplit
    · rw [if_neg hs, hu1]
      have hsch : d.scheme = [] := not_not.mp hs
      have hS := h.no_scheme hsch hnl hpf2
      unfold assembleTail at hS
      rw [← hsch] at hS
      exact urlparseF_eq hS hnet h.netloc_brackets hfs hqs hpfsplit


/-!
Inversion of urlparse: facts that hold of every successfully parsed
URL, enough to show that the components normalize_url rebuilds are
well-formed in the sense of PartsWF.
-/

theorem dropWhile_first_false {α : Type} {p : α → Bool} : ∀ {l : List α} {e : α} {t : List α},
    l.dropWhile p = e :: t → p e = false := by
  intro l
  induction l with
  | nil =>
    intro e t h
    cases h
  | cons a r ih =>
    intro e t h
    rw [List.dropWhile_cons] at h
    by_cases hp : p a = true
    · rw [if_pos hp] at h
      exact ih h
    · rw [if_neg hp] at h
      injection h with h1 _
      subst h1
      cases hv : p a with
      | false => rfl
      | true => exact absurd hv hp

theorem notDelim_false {e : Char} (h : notDelim e = false) : e = '/' ∨ e = '?' ∨ e = '#' := by
  by_cases h1 : e = '/'
  · exact Or.inl h1
  by_cases h2 : e = '?'
  · exact Or.inr (Or.inl h2)
  by_cases h3 : e = '#'
  · exact Or.inr (Or.inr h3)
  exfalso
  unfold notDelim at h
  rw [decide_eq_false h1, decide_eq_false h2, decide_eq_false h3] at h
  exact absurd h (by decide)

theorem schemeOK_false_of_mem {a : Str} {x : Char} (hx : x ∈ a) (hbad : schemeChar x = false) :
    schemeOK a = false := by
  cases a with
  | nil => rfl
  | cons c t =>
    rw [schemeOK]
    cases hv : isAlphaC c with
    | false => rfl
    | true =>
      rw [Bool.true_and]
      cases hall : (c :: t).all schemeChar with
      | false => rfl
      | true =>
        have := List.all_eq_true.mp hall x hx
        rw [hbad] at this
        cases this

theorem schemeSplit_no_scheme {v : Str}
    (hv : ∀ a b, breakFirst ':' v = some (a, b) → schemeOK a = false) :
    schemeSplit v = ([], v) := by
  cases hb : breakFirst ':' v with
  | none => exact schemeSplit_none hb
  | some p =>
    obtain ⟨a, b⟩ := p
    rw [schemeSplit_some hb, if_neg (by rw [hv a b hb]; exact Bool.false_ne_true)]

theorem schemeSplit_qf (q f : Str) :
    schemeSplit (qpart q ++ fpart f) = ([], qpart q ++ fpart f) := by
  unfold qpart fpart
  by_cases hq : q ≠ []
  · rw [if_pos hq]
    exact schemeSplit_head_bad (by decide) (by decide)
  · rw [if_neg hq, List.nil_append]
    by_cases hf : f ≠ []
    · rw [if_pos hf]
      exact schemeSplit_head_bad (by decide) (by decide)
    · rw [if_neg hf]
      exact schemeSplit_none rfl

theorem schemeSplit_fst {u sch r : Str} (h : schemeSplit u = (sch, r)) :
    sch = [] ∨ (schemeOK sch = true ∧ sch.map lowerC = sch) := by
  cases hb : breakFirst ':' u with
  | none =>
    rw [schemeSplit_none hb] at h
    injection h with h1 _
    exact Or.inl h1.symm
  | some p =>
    obtain ⟨a, b⟩ := p
    rw [schemeSplit_some hb] at h
    by_cases hok : schemeOK a = true
    · rw [if_pos hok] at h
      injection h with h1 _
      right
      rw [← h1]
      exact ⟨schemeOK_map_lowerC hok, map_lowerC_idem a⟩
    · rw [if_neg hok] at h
      injection h with h1 _
      exact Or.inl h1.symm

theorem schemeSplit_empty {u r1 : Str} (h : schemeSplit u = ([], r1)) :
    r1 = u ∧ ∀ a b, breakFirst ':' u = some (a, b) → schemeOK a = false := by
  cases hb : breakFirst ':' u with
  | none =>
    rw [schemeSplit_none hb] at h
    injection h with _ h2
    refine ⟨h2.symm, ?_⟩
    intro a b hab
    cases hab
  | some p =>
    obtain ⟨a0, b0⟩ := p
    rw [schemeSplit_some hb] at h
    by_cases hok : schemeOK a0 = true
    · rw [if_pos hok] at h
      injection h with h1 _
      exfalso
      rw [List.map_eq_nil_iff] at h1
      rw [h1] at hok
      exact absurd hok (by decide)
    · rw [if_neg hok] at h
      injection h with _ h2
      refine ⟨h2.symm, ?_⟩
      intro a b hab
      injection hab with hab
      injection hab with ha _
      subst ha
      cases hv : schemeOK a0 with
      | false => rfl
      | true => exact absurd hv hok

theorem netlocSplit_fst {r1 nl r2 : Str} (h : netlocSplit r1 = (nl, r2)) :
    ∀ x ∈ nl, notDelim x = true := by
  unfold netlocSplit at h
  by_cases ht : r1.take 2 = ['/', '/']
  · rw [if_pos ht] at h
    injection h with h1 _
    intro x hx
    rw [← h1] at hx
    exact List.mem_takeWhile_imp hx
  · rw [if_neg ht] at h
    injection h with h1 _
    intro x hx
    rw [← h1] at hx
    cases hx

theorem netlocSplit_cases {r1 nl r2 : Str} (h : netlocSplit r1 = (nl, r2)) :
    (nl = [] ∧ r2 = r1 ∧ r1.take 2 ≠ ['/', '/']) ∨ ∀ x ∈ r2.take 1, notDelim x = false := by
  unfold netlocSplit at h
  by_cases ht : r1.take 2 = ['/', '/']
  · rw [if_pos ht] at h
    injection h with _ h2
    right
    intro x hx
    rw [← h2] at hx
    cases hd : (r1.drop 2).dropWhile notDelim with
    | nil =>
      rw [hd] at hx
      cases hx
    | cons e t =>
      rw [hd] at hx
      have he : (e :: t).take 1 = [e] := rfl
      rw [he, List.mem_singleton] at hx
      subst hx
      exact dropWhile_first_false hd
  · rw [if_neg ht] at h
    injection h with h1 h2
    exact Or.inl ⟨h1.symm, h2.symm, ht⟩

theorem fragSplit_fst {r2 pp2 frag : Str} (h : fragSplit r2 = (pp2, frag)) :
    '#' ∉ pp2 ∧ (r2 = pp2 ∧ frag = [] ∨ r2 = pp2 ++ '#' :: frag) := by
  unfold fragSplit at h
  cases hb : breakFirst '#' r2 with
  | none =>
    rw [hb] at h
    injection h with h1 h2
    subst h1
    subst h2
    exact ⟨breakFirst_eq_none.mp hb, Or.inl ⟨rfl, rfl⟩⟩
  | some p =>
    obtain ⟨a, b⟩ := p
    rw [hb] at h
    injection h with h1 h2
    subst h1
    subst h2
    obtain ⟨hd, hna⟩ := breakFirst_eq_some hb
    exact ⟨hna, Or.inr hd⟩

theorem qSplit_fst {pp2 pp3 q : Str} (h : qSplit pp2 = (pp3, q)) :
    '?' ∉ pp3 ∧ (pp2 = pp3 ∧ q = [] ∨ pp2 = pp3 ++ '?' :: q) := by
  unfold qSplit at h
  cases hb : breakFirst '?' pp2 with
  | none =>
    rw [hb] at h
    injection h with h1 h2
    subst h1
    subst h2
    exact ⟨breakFirst_eq_none.mp hb, Or.inl ⟨rfl, rfl⟩⟩
  | some p =>
    obtain ⟨a, b⟩ := p
    rw [hb] at h
    injection h with h1 h2
    subst h1
    subst h2
    obtain ⟨hd, hna⟩ := breakFirst_eq_some hb
    exact ⟨hna, Or.inr hd⟩

theorem bracketBad_replaceWWW {n : Str} (h : bracketBad n = false) :
    bracketBad (replaceWWW n) = false := by
  unfold bracketBad at h ⊢
  by_cases h1 : '[' ∈ n
  · by_cases h2 : ']' ∈ n
    · rw [decide_eq_true ((mem_replaceWWW_iff (by decide) (by decide)).mpr h1),
        decide_eq_true ((mem_replaceWWW_iff (by decide) (by decide)).mpr h2)]
      rfl
    · rw [decide_eq_true h1, decide_eq_false h2] at h
      exact absurd h (by decide)
  · by_cases h2 : ']' ∈ n
    · rw [decide_eq_false h1, decide_eq_true h2] at h
      exact absurd h (by decide)
    · rw [decide_eq_false (fun hm => h1 ((mem_replaceWWW_iff (by decide) (by decide)).mp hm)),
        decide_eq_false (fun hm => h2 ((mem_replaceWWW_iff (by decide) (by decide)).mp hm))]
      rfl

theorem urlparseF_inv {u : Str} {c : UrlParts} (h : urlparseF u = some c) :
    ∃ r1 r2 pp2 pp3,
      schemeSplit u = (c.scheme, r1) ∧ netlocSplit r1 = (c.netloc, r2) ∧
        bracketBad c.netloc = false ∧ fragSplit r2 = (pp2, c.fragment) ∧
        qSplit pp2 = (pp3, c.query) ∧ ppSplit pp3 = (c.path, c.params) := by
  simp only [urlparseF] at h
  cases hbb : bracketBad (netlocSplit (schemeSplit u).2).1 with
  | true =>
    rw [if_pos hbb] at h
    cases h
  | false =>
    rw [if_neg (by rw [hbb]; exact Bool.false_ne_true)] at h
    injection h with h
    subst h
    exact ⟨(schemeSplit u).2, (netlocSplit (schemeSplit u).2).2,
      (fragSplit (netlocSplit (schemeSplit u).2).2).1,
      (qSplit (fragSplit (netlocSplit (schemeSplit u).2).2).1).1,
      rfl, rfl, hbb, rfl, rfl, rfl⟩

/-- The rewritten query string of normalize_url: parse, drop tracking
keys, re-encode. -/
def normQuery (q : Str) : Str :=
  urlencodeF ((parse_qs q).filter (fun kv => !trackKey kv.1))

/-- The rewritten components normalize_url reassembles. -/
def normParts (c : UrlParts) : UrlParts :=
  ⟨c.scheme, replaceWWW c.netloc, c.path, c.params, normQuery c.query, c.fragment⟩

theorem normalize_url_some {u : Str} {c : UrlParts} (h : urlparseF u = some c) :
    normalize_url u = urlunparseF (normParts c) := by
  unfold normalize_url
  rw [h]
  rfl

theorem normalize_url_none {u : Str} (h : urlparseF u = none) :
    normalize_url u = u := by
  unfold normalize_url
  rw [h]

theorem normQuery_mem {q : Str} : ∀ x ∈ normQuery q, qChar x ∨ x = '&' ∨ x = '=' :=
  fun x hx => urlencodeF_mem x hx


/-!
Invariants of parse_qs output: the keys are distinct and every value
list and value string is non-empty.  They survive the tracking-key
filter, so re-encoding and re-parsing the query is the identity.
-/

theorem keysOf_addPair : ∀ (acc : List (Str × List Str)) (k v : Str),
    keysOf (addPair acc k v) =
      if k ∈ keysOf acc then keysOf acc else keysOf acc ++ [k] := by
  intro acc
  induction acc with
  | nil =>
    intro k v
    simp [addPair, keysOf]
  | cons kv t ih =>
    intro k v
    obtain ⟨k1, vs⟩ := kv
    rw [addPair]
    by_cases hk : k1 = k
    · subst hk
      rw [if_pos rfl, if_pos (by simp [keysOf])]
      rfl
    · rw [if_neg hk]
      have h1 : keysOf ((k1, vs) :: addPair t k v) = k1 :: keysOf (addPair t k v) := rfl
      have h2 : keysOf ((k1, vs) :: t) = k1 :: keysOf t := rfl
      rw [h1, h2, ih]
      by_cases hmem : k ∈ keysOf t
      · rw [if_pos hmem, if_pos (List.mem_cons_of_mem _ hmem)]
      · rw [if_neg hmem, if_neg (by
          rw [List.mem_cons]
          rintro (he | hm)
          · exact hk he.symm
          · exact hmem hm)]
        rfl

theorem nodup_addPair {acc : List (Str × List Str)} (k v : Str)
    (h : (keysOf acc).Nodup) : (keysOf (addPair acc k v)).Nodup := by
  rw [keysOf_addPair]
  by_cases hmem : k ∈ keysOf acc
  · rw [if_pos hmem]
    exact h
  · rw [if_neg hmem]
    refine List.nodup_append.mpr ⟨h, List.nodup_singleton k, ?_⟩
    intro a ha hb
    rw [List.mem_singleton] at hb
    subst hb
    exact hmem ha

theorem addPair_vals {acc : List (Str × List Str)} {k v : Str}
    (hacc : ∀ kv ∈ acc, kv.2 ≠ [] ∧ ∀ s ∈ kv.2, s ≠ []) (hv : v ≠ []) :
    ∀ kv ∈ addPair acc k v, kv.2 ≠ [] ∧ ∀ s ∈ kv.2, s ≠ [] := by
  induction acc with
  | nil =>
    intro kv hkv
    rw [addPair, List.mem_singleton] at hkv
    subst hkv
    refine ⟨by simp, ?_⟩
    intro s hs
    rw [List.mem_singleton] at hs
    subst hs
    exact hv
  | cons kv0 t ih =>
    obtain ⟨k1, vs⟩ := kv0
    intro kv hkv
    rw [addPair] at hkv
    by_cases hk : k1 = k
    · rw [if_pos hk, List.mem_cons] at hkv
      rcases hkv with he | hm
      · subst he
        have h0 := hacc (k1, vs) (List.mem_cons_self _ _)
        refine ⟨by simp, ?_⟩
        intro s hs
        rw [List.mem_append] at hs
        rcases hs with hs | hs
        · exact h0.2 s hs
        · rw [List.mem_singleton] at hs
          subst hs
          exact hv
      · exact hacc kv (List.mem_cons_of_mem _ hm)
    · rw [if_neg hk, List.mem_cons] at hkv
      rcases hkv with he | hm
      · subst he
        exact hacc (k1, vs) (List.mem_cons_self _ _)
      · exact ih (fun kv2 h2 => hacc kv2 (List.mem_cons_of_mem _ h2)) kv hm

theorem parseQsl_snd_ne_nil {q : Str} : ∀ kv ∈ parseQsl q, kv.2 ≠ [] := by
  intro kv hkv
  unfold parseQsl at hkv
  rw [List.mem_filterMap] at hkv
  obtain ⟨field, _, hf⟩ := hkv
  by_cases he : field = []
  · rw [if_pos he] at hf
    cases hf
  · rw [if_neg he] at hf
    cases hb : breakFirst '=' field with
    | none =>
      rw [hb] at hf
      cases hf
    | some p =>
      obtain ⟨k, v⟩ := p
      rw [hb] at hf
      have hf2 : (if v = [] then none else some (unquotePlus k, unquotePlus v)) = some kv := hf
      by_cases hv : v = []
      · rw [if_pos hv] at hf2
        cases hf2
      · rw [if_neg hv] at hf2
        injection hf2 with hf2
        subst hf2
        exact unquotePlus_ne_nil hv

theorem fold_addPair_wf : ∀ (l : List (Str × Str)) (acc : List (Str × List Str)),
    (∀ p ∈ l, p.2 ≠ []) → (keysOf acc).Nodup →
    (∀ kv ∈ acc, kv.2 ≠ [] ∧ ∀ s ∈ kv.2, s ≠ []) →
    (keysOf (l.foldl (fun acc kv => addPair acc kv.1 kv.2) acc)).Nodup ∧
      ∀ kv ∈ l.foldl (fun acc kv => addPair acc kv.1 kv.2) acc,
        kv.2 ≠ [] ∧ ∀ s ∈ kv.2, s ≠ [] := by
  intro l
  induction l with
  | nil =>
    intro acc _ h1 h2
    exact ⟨h1, h2⟩
  | cons p t ih =>
    intro acc hl h1 h2
    rw [List.foldl_cons]
    exact ih _ (fun p2 hp2 => hl p2 (List.mem_cons_of_mem _ hp2))
      (nodup_addPair _ _ h1) (addPair_vals h2 (hl p (List.mem_cons_self _ _)))

theorem parse_qs_wf (q : Str) :
    (keysOf (parse_qs q)).Nodup ∧
      ∀ kv ∈ parse_qs q, kv.2 ≠ [] ∧ ∀ s ∈ kv.2, s ≠ [] := by
  unfold parse_qs
  exact fold_addPair_wf (parseQsl q) [] parseQsl_snd_ne_nil (by simp [keysOf]) (by simp)

theorem keysOf_filter_nodup {d : List (Str × List Str)} {p : Str × List Str → Bool}
    (h : (keysOf d).Nodup) : (keysOf (d.filter p)).Nodup := by
  have hsub : List.Sublist (keysOf (d.filter p)) (keysOf d) :=
    (List.filter_sublist d).map Prod.fst
  exact List.Nodup.sublist hsub h

/-- Re-parsing the re-encoded filtered query gives the filtered pairs
back. -/
theorem parse_qs_normQuery (q : Str) :
    parse_qs (normQuery q) = (parse_qs q).filter (fun kv => !trackKey kv.1) := by
  obtain ⟨hnodup, hvals⟩ := parse_qs_wf q
  unfold normQuery
  refine parse_qs_urlencodeF (keysOf_filter_nodup hnodup) ?_ ?_
  · intro kv hkv
    exact (hvals kv (List.mem_of_mem_filter hkv)).1
  · intro kv hkv
    exact (hvals kv (List.mem_of_mem_filter hkv)).2

/-- The components normalize_url rebuilds from any successfully parsed
URL are well-formed, so the rebuilt URL parses back to exactly those
components. -/
theorem normParts_wf {u : Str} {c : UrlParts} (h : urlparseF u = some c) :
    PartsWF (normParts c) := by
  obtain ⟨r1, r2, pp2, pp3, hS, hN, hB, hF, hQ, hP⟩ := urlparseF_inv h
  obtain ⟨hpp2_hash, hFd⟩ := fragSplit_fst hF
  obtain ⟨hpp3_q, hQd⟩ := qSplit_fst hQ
  have hPP := ppSplit_parse pp3
  rw [hP] at hPP
  have hPd : (c.params = [] ∧ c.path = pp3) ∨ c.path ++ ';' :: c.params = pp3 := hPP.1
  have hseg : lastSegNoSemi c.path := hPP.2.1
  have hprs : '/' ∉ c.params := hPP.2.2
  have hpath_pp3 : ∀ x ∈ c.path, x ∈ pp3 := by
    rcases hPd with ⟨_, hpe⟩ | hpe
    · intro x hx
      rw [← hpe]
      exact hx
    · intro x hx
      rw [← hpe]
      exact List.mem_append_left _ hx
  have hprm_pp3 : ∀ x ∈ c.params, x ∈ pp3 := by
    rcases hPd with ⟨hprnil, _⟩ | hpe
    · intro x hx
      rw [hprnil] at hx
      cases hx
    · intro x hx
      rw [← hpe]
      exact List.mem_append_right _ (List.mem_cons_of_mem _ hx)
  have hpp3_pp2 : ∀ x ∈ pp3, x ∈ pp2 := by
    rcases hQd with ⟨hqe, _⟩ | hqe
    · intro x hx
      rw [hqe]
      exact hx
    · intro x hx
      rw [hqe]
      exact List.mem_append_left _ hx
  have hpp3_hash : '#' ∉ pp3 := fun hx => hpp2_hash (hpp3_pp2 _ hx)
  obtain ⟨s2, hs2⟩ : ∃ s2, pp2 = pp3 ++ s2 := by
    rcases hQd with ⟨hqe, _⟩ | hqe
    · exact ⟨[], by rw [List.append_nil]; exact hqe⟩
    · exact ⟨'?' :: c.query, hqe⟩
  obtain ⟨s1, hs1⟩ : ∃ s1, r2 = pp2 ++ s1 := by
    rcases hFd with ⟨hfe, _⟩ | hfe
    · exact ⟨[], by rw [List.append_nil]; exact hfe⟩
    · exact ⟨'#' :: c.fragment, hfe⟩
  obtain ⟨T, hT⟩ : ∃ T, r2 = c.path ++ T := by
    obtain ⟨s3, h3⟩ : ∃ s3, pp3 = c.path ++ s3 := by
      rcases hPd with ⟨_, hpe⟩ | hpe
      · exact ⟨[], by rw [List.append_nil]; exact hpe.symm⟩
      · exact ⟨';' :: c.params, hpe.symm⟩
    exact ⟨s3 ++ s2 ++ s1, by rw [hs1, hs2, h3]; simp [List.append_assoc]⟩
  have hnl_path : replaceWWW c.netloc ≠ [] → (c.path = [] ∨ c.path.take 1 = ['/']) := by
    intro hn
    have hnn : c.netloc ≠ [] := by
      intro he
      rw [he] at hn
      exact hn rfl
    rcases netlocSplit_cases hN with ⟨hnl0, _, _⟩ | hhead
    · exact absurd hnl0 hnn
    cases hp : c.path with
    | nil => exact Or.inl rfl
    | cons e t =>
      right
      rw [hp] at hT
      have hmem : e ∈ r2.take 1 := by
        rw [hT]
        exact List.mem_cons_self _ _
      rcases notDelim_false (hhead e hmem) with he | he | he
      · subst he
        rfl
      · exfalso
        apply hpp3_q
        rw [← he]
        exact hpath_pp3 _ (by rw [hp]; exact List.mem_cons_self _ _)
      · exfalso
        apply hpp3_hash
        rw [← he]
        exact hpath_pp3 _ (by rw [hp]; exact List.mem_cons_self _ _)
  have hnl_pp : replaceWWW c.netloc ≠ [] → c.path = [] → c.params = [] := by
    intro hn hp
    have hnn : c.netloc ≠ [] := by
      intro he
      rw [he] at hn
      exact hn rfl
    rcases netlocSplit_cases hN with ⟨hnl0, _, _⟩ | hhead
    · exact absurd hnl0 hnn
    rcases hPd with ⟨hprnil, _⟩ | hpe
    · exact hprnil
    exfalso
    rw [hp, List.nil_append] at hpe
    have hr2h : r2 = ';' :: (c.params ++ s2 ++ s1) := by
      rw [hs1, hs2, ← hpe]
      simp [List.append_assoc]
    have hm : (';' : Char) ∈ r2.take 1 := by
      rw [hr2h]
      exact List.mem_cons_self _ _
    exact absurd (hhead _ hm) (by decide)
  refine ⟨schemeSplit_fst hS, ?_, bracketBad_replaceWWW hB, ?_, ?_, ?_, ?_, hprs, hseg,
    ?_, ?_, hnl_path, hnl_pp, ?_⟩
  · exact fun x hx => netlocSplit_fst hN x (mem_replaceWWW_sub hx)
  · exact fun hx => hpp3_hash (hpath_pp3 _ hx)
  · exact fun hx => hpp3_q (hpath_pp3 _ hx)
  · exact fun hx => hpp3_hash (hprm_pp3 _ hx)
  · exact fun hx => hpp3_q (hprm_pp3 _ hx)
  · exact fun hx => absurd (normQuery_mem _ hx) (by decide)
  · exact fun hx => absurd (normQuery_mem _ hx) (by decide)
  · -- the no-scheme condition: the reassembled tail never re-acquires a scheme
    intro hsch0 hnl0 hpf2
    have hqn : ':' ∉ normQuery c.query :=
      fun hx => absurd (normQuery_mem _ hx) (by decide)
    have hshow : assembleTail (normParts c) =
        (if c.params ≠ [] then c.path ++ ';' :: c.params else c.path) ++
          qpart (normQuery c.query) ++ fpart c.fragment := rfl
    rcases netlocSplit_cases hN with ⟨hnl1, hr21, hnt⟩ | hhead
    · -- the original URL had no netloc either: its scheme analysis transfers
      have hS0 : schemeSplit u = ([], r1) := by
        rw [← hsch0]
        exact hS
      obtain ⟨hr1u, hu2⟩ := schemeSplit_empty hS0
      have hr2u : r2 = u := by rw [hr21, hr1u]
      apply schemeSplit_no_scheme
      intro a b hab
      rw [hshow] at hab
      by_cases hcp : ':' ∈ c.path
      · cases hbp : breakFirst ':' c.path with
        | none => exact absurd hcp (breakFirst_eq_none.mp hbp)
        | some PS =>
          obtain ⟨P, S⟩ := PS
          obtain ⟨hdec, hnP⟩ := breakFirst_eq_some hbp
          have hUdec : u = P ++ ':' :: (S ++ T) := by
            rw [← hr2u, hT, hdec]
            simp [List.append_assoc]
          have hokP : schemeOK P = false :=
            hu2 P (S ++ T) (by rw [hUdec]; exact breakFirst_append hnP)
          have hVR : ∃ R, (if c.params ≠ [] then c.path ++ ';' :: c.params else c.path) ++
              qpart (normQuery c.query) ++ fpart c.fragment = P ++ ':' :: R := by
            by_cases hpr : c.params ≠ []
            · refine ⟨S ++ ';' :: c.params ++ qpart (normQuery c.query) ++
                fpart c.fragment, ?_⟩
              rw [if_pos hpr, hdec]
              simp [List.append_assoc]
            · refine ⟨S ++ qpart (normQuery c.query) ++ fpart c.fragment, ?_⟩
              rw [if_neg hpr, hdec]
              simp [List.append_assoc]
          obtain ⟨R, hR⟩ := hVR
          rw [hR, breakFirst_append hnP] at hab
          injection hab with hab
          injection hab with ha _
          subst ha
          exact hokP
      · by_cases hcpr : ':' ∈ c.params
        · have hprne : c.params ≠ [] := by
            intro he
            rw [he] at hcpr
            cases hcpr
          cases hbp : breakFirst ':' c.params with
          | none => exact absurd hcpr (breakFirst_eq_none.mp hbp)
          | some PS =>
            obtain ⟨P2, S2⟩ := PS
            obtain ⟨hdec, hnP⟩ := breakFirst_eq_some hbp
            have hA : ':' ∉ c.path ++ ';' :: P2 := by
              intro hm
              rw [List.mem_append, List.mem_cons] at hm
              rcases hm with hm | hm | hm
              · exact hcp hm
              · exact absurd hm (by decide)
              · exact hnP hm
            have hR : (if c.params ≠ [] then c.path ++ ';' :: c.params else c.path) ++
                qpart (normQuery c.query) ++ fpart c.fragment =
                (c.path ++ ';' :: P2) ++ ':' ::
                  (S2 ++ qpart (normQuery c.query) ++ fpart c.fragment) := by
              rw [if_pos hprne, hdec]
              simp [List.append_assoc]
            rw [hR, breakFirst_append hA] at hab
            injection hab with hab
            injection hab with ha _
            subst ha
            exact schemeOK_false_of_mem
              (List.mem_append_right _ (List.mem_cons_self _ _)) (by decide)
        · have hA1 : ':' ∉ (if c.params ≠ [] then c.path ++ ';' :: c.params else c.path) := by
            by_cases hpr : c.params ≠ []
            · rw [if_pos hpr]
              intro hm
              rw [List.mem_append, List.mem_cons] at hm
              rcases hm with hm | hm | hm
              · exact hcp hm
              · exact absurd hm (by decide)
              · exact hcpr hm
            · rw [if_neg hpr]
              exact hcp
          have hA2 : ':' ∉ (if c.params ≠ [] then c.path ++ ';' :: c.params else c.path) ++
              qpart (normQuery c.query) := by
            intro hm
            rw [List.mem_append] at hm
            rcases hm with hm | hm
            · exact hA1 hm
            unfold qpart at hm
            by_cases hq : normQuery c.query ≠ []
            · rw [if_pos hq, List.mem_cons] at hm
              rcases hm with hm | hm
              · exact absurd hm (by decide)
              · exact hqn hm
            · rw [if_neg hq] at hm
              cases hm
          by_cases hcf : ':' ∈ c.fragment
          · have hfne : c.fragment ≠ [] := by
              intro he
              rw [he] at hcf
              cases hcf
            cases hbp : breakFirst ':' c.fragment with
            | none => exact absurd hcf (breakFirst_eq_none.mp hbp)
            | some PS =>
              obtain ⟨F2, S2⟩ := PS
              obtain ⟨hdec, hnP⟩ := breakFirst_eq_some hbp
              have hA : ':' ∉ ((if c.params ≠ [] then c.path ++ ';' :: c.params else c.path) ++
                  qpart (normQuery c.query)) ++ '#' :: F2 := by
                intro hm
                rw [List.mem_append, List.mem_cons] at hm
                rcases hm with hm | hm | hm
                · exact hA2 hm
                · exact absurd hm (by decide)
                · exact hnP hm
              have hfe : fpart c.fragment = '#' :: (F2 ++ ':' :: S2) := by
                unfold fpart
                rw [if_pos hfne, hdec]
              have hR : (if c.params ≠ [] then c.path ++ ';' :: c.params else c.path) ++
                  qpart (normQuery c.query) ++ fpart c.fragment =
                  (((if c.params ≠ [] then c.path ++ ';' :: c.params else c.path) ++
                    qpart (normQuery c.query)) ++ '#' :: F2) ++ ':' :: S2 := by
                rw [hfe]
                simp [List.append_assoc]
              rw [hR, breakFirst_append hA] at hab
              injection hab with hab
              injection hab with ha _
              subst ha
              exact schemeOK_false_of_mem
                (List.mem_append_right _ (List.mem_cons_self _ _)) (by decide)
          · have hAv : ':' ∉ (if c.params ≠ [] then c.path ++ ';' :: c.params else c.path) ++
                qpart (normQuery c.query) ++ fpart c.fragment := by
              intro hm
              rw [List.mem_append] at hm
              rcases hm with hm | hm
              · exact hA2 hm
              unfold fpart at hm
              by_cases hfq : c.fragment ≠ []
              · rw [if_pos hfq, List.mem_cons] at hm
                rcases hm with hm | hm
                · exact absurd hm (by decide)
                · exact hcf hm
              · rw [if_neg hfq] at hm
                cases hm
            rw [breakFirst_of_not_mem hAv] at hab
            cases hab
    · -- the original URL had a netloc part: the rebuilt path keeps
      -- a slash head or is empty
      cases hp : c.path with
      | nil =>
        have hprnil : c.params = [] := by
          rcases hPd with ⟨hq0, _⟩ | hpe
          · exact hq0
          exfalso
          rw [hp, List.nil_append] at hpe
          have hr2h : r2 = ';' :: (c.params ++ s2 ++ s1) := by
            rw [hs1, hs2, ← hpe]
            simp [List.append_assoc]
          have hm : (';' : Char) ∈ r2.take 1 := by
            rw [hr2h]
            exact List.mem_cons_self _ _
          exact absurd (hhead _ hm) (by decide)
        have hpfnil : (if c.params ≠ [] then c.path ++ ';' :: c.params else c.path) = [] := by
          rw [if_neg (fun hh => hh hprnil), hp]
        rw [hshow, hpfnil, List.nil_append]
        exact schemeSplit_qf _ _
      | cons e t =>
        rw [hp] at hT
        have hmem : e ∈ r2.take 1 := by
          rw [hT]
          exact List.mem_cons_self _ _
        rcases notDelim_false (hhead e hmem) with he | he | he
        · subst he
          rw [hshow, hp]
          by_cases hpr : c.params ≠ []
          · rw [if_pos hpr]
            exact schemeSplit_head_bad (by decide) (by decide)
          · rw [if_neg hpr]
            exact schemeSplit_head_bad (by decide) (by decide)
        · exfalso
          apply hpp3_q
          rw [← he]
          exact hpath_pp3 _ (by rw [hp]; exact List.mem_cons_self _ _)
        · exfalso
          apply hpp3_hash
          rw [← he]
          exact hpath_pp3 _ (by rw [hp]; exact List.mem_cons_self _ _)


/-!
Claim C5: idempotence of normalize_url.
-/

/-- C5 counterexample: normalize_url is not idempotent on every URL.
Stripping the leftmost non-overlapping www. occurrences from the
netloc wwwww.w. leaves www., so the second application strips again
and, the netloc now empty, also collapses the double slash. -/
theorem c5_counterexample :
    normalize_url (normalize_url (ofStr "http://wwwww.w./x")) ≠
      normalize_url (ofStr "http://wwwww.w./x") := by decide

/-- C5 (amended): normalize_url is idempotent on every URL u whose
parsed netloc is stable under a second www-strip, that is, whenever
urlparse(u) succeeds with components c, stripping www. twice from
c.netloc gives the same string as stripping it once.  Every other
rewriting step of normalize_url (dropping tracking keys, re-encoding
the query, reassembling) is idempotent unconditionally. -/
theorem c5_norm_idempotent {u : Str}
    (h : ∀ c : UrlParts, urlparseF u = some c →
      replaceWWW (replaceWWW c.netloc) = replaceWWW c.netloc) :
    normalize_url (normalize_url u) = normalize_url u := by
  cases hp : urlparseF u with
  | none => rw [normalize_url_none hp, normalize_url_none hp]
  | some c =>
    rw [normalize_url_some hp]
    have hp2 : urlparseF (urlunparseF (normParts c)) = some (normParts c) :=
      urlparseF_unparse (normParts_wf hp)
    rw [normalize_url_some hp2]
    have hq : normQuery (normQuery c.query) = normQuery c.query := by
      show urlencodeF ((parse_qs (normQuery c.query)).filter (fun kv => !trackKey kv.1)) =
        normQuery c.query
      rw [parse_qs_normQuery]
      have hff : ((parse_qs c.query).filter (fun kv => !trackKey kv.1)).filter
          (fun kv => !trackKey kv.1) =
          (parse_qs c.query).filter (fun kv => !trackKey kv.1) := by
        apply List.filter_eq_self.mpr
        intro a ha
        rw [List.mem_filter] at ha
        exact ha.2
      rw [hff]
      rfl
    have hnp : normParts (normParts c) = normParts c := by
      show (⟨c.scheme, replaceWWW (replaceWWW c.netloc), c.path, c.params,
        normQuery (normQuery c.query), c.fragment⟩ : UrlParts) =
        ⟨c.scheme, replaceWWW c.netloc, c.path, c.params, normQuery c.query, c.fragment⟩
      rw [h c hp, hq]
    rw [hnp]

/-!
filter_and_save.py: the two-stage LLM filter, the summariser and the
per-URL processing loop body.  An LLM call is modelled by its outcome,
an exception or a response text; regular-expression searches are
modelled by CPython semantics (leftmost start position, greedy or lazy
repetition as written, DOTALL only where the flag is set).
-/

def RELEVANCE_THRESHOLD : Nat := 7

/-- The outcome of one LLM call. -/
inductive LlmResp where
  | exn : LlmResp
  | ok : Str → LlmResp
deriving DecidableEq

/-- ASCII digit. -/
def digC (c : Char) : Bool := 48 ≤ c.toNat && c.toNat ≤ 57

/-- The final-channel marker the relevance check searches for. -/
def finalMarker : Str := ofStr "<|channel|>final<|message|>"

/-- The DOTALL search for the final marker: group 1 is everything
after the first occurrence. -/
def searchFinal (s : Str) : Option Str := (splitOnSub finalMarker s).map (fun p => p.2)

/-- One attempted match of the Score/Justification pattern at a fixed
start position: the literal Score: case-insensitively, greedy
whitespace (newlines included), one or more digits, a greedy same-line
gap to the last Justification: occurrence starting on that line,
greedy whitespace, then the rest of that line as group 2. -/
def matchSJ (t : Str) : Option (Str × Str) :=
  if ciPre (ofStr "score:") t then
    let r1 := (t.drop 6).dropWhile wsC
    let digits := r1.takeWhile digC
    if digits = [] then none
    else
      let r2 := r1.dropWhile digC
      let line := r2.takeWhile (fun c => !(c = '\n'))
      match ((List.range (line.length + 1)).filter
          (fun i => ciPre (ofStr "justification:") (r2.drop i))).getLast? with
      | none => none
      | some i =>
        some (digits, ((r2.drop (i + 14)).dropWhile wsC).takeWhile (fun c => !(c = '\n')))
  else none

/-- re.search of the Score/Justification pattern: the leftmost start
position at which it matches. -/
def searchSJ (s : Str) : Option (Str × Str) :=
  ((List.range (s.length + 1)).filterMap (fun i => matchSJ (s.drop i))).head?

/-- Decimal rendering of a number (str of a Python int). -/
def natDec (n : Nat) : Str := Nat.toDigits 10 n

/-- The verdict of Step A once the Score/Justification search has
run. -/
def sjVerdict (o : Option (Str × Str)) : Bool × Str :=
  match o with
  | none => (false, ofStr "LLM \x27final\x27 channel had unexpected format.")
  | some (ds, just) =>
    let score := natOfDigits ds
    if RELEVANCE_THRESHOLD ≤ score then
      (true, ofStr "High thematic relevance (Score: " ++ natDec score ++
        ofStr "/10). Justification: " ++ trim just)
    else (false, ofStr "Low thematic relevance (Score: " ++ natDec score ++ ofStr "/10).")

/-- The verdict of Step A once the final-channel search has run. -/
def finVerdict (o : Option Str) : Bool × Str :=
  match o with
  | none => (false, ofStr "LLM did not produce a \x27final\x27 channel.")
  | some g1 => sjVerdict (searchSJ (trim g1))

/-- Step A of the filter, from filter_and_save.py. -/
def check_thematic_relevance (resp : LlmResp) : Bool × Str :=
  match resp with
  | .exn => (false, ofStr "LLM analysis error.")
  | .ok txt => finVerdict (searchFinal (trim txt))

/-- Step B of the filter. -/
def confirm_keyword_relevance (resp : LlmResp) : Bool :=
  match resp with
  | .exn => false
  | .ok txt => containsSub (ofStr "yes") ((trim txt).map lowerC)

/-- The anchored boilerplate strip of the summariser: optional leading
whitespace, the literal Here is a summary case-insensitively, then
lazily up to the first colon on that line. -/
def subBoiler (s : Str) : Str :=
  let w := s.dropWhile wsC
  if ciPre (ofStr "here is a summary") w then
    match breakFirst ':' ((w.drop 17).takeWhile (fun c => !(c = '\n'))) with
    | some (a, _) => (w.drop 17).drop (a.length + 1)
    | none => s
  else s

/-- The summariser of filter_and_save.py. -/
def summarize_with_llm (resp : LlmResp) : Str :=
  match resp with
  | .exn => ofStr "Summarization failed due to an error."
  | .ok txt => trim (subBoiler (trim txt))

/-- The scraped title and content of one article. -/
structure ScrapeData where
  title : Str
  content : Str
deriving DecidableEq

/-- One appended database record. -/
structure DbEntry where
  title : Str
  url : Str
  reason : Str
  summary : Str
deriving DecidableEq

/-- What one iteration of the filtering loop did. -/
structure StepTrace where
  stageBCalled : Bool
  appended : Option DbEntry
deriving DecidableEq

/-- The body of the filtering loop of filter_and_save.py for one URL,
with the scrape result and the LLM outcomes as inputs. -/
def processUrl (url : Str) (scrape : Option ScrapeData) (respA respB respSum : LlmResp) :
    StepTrace :=
  match scrape with
  | none => ⟨false, none⟩
  | some d =>
    if d.content = [] then ⟨false, none⟩
    else if (check_thematic_relevance respA).1 then
      if confirm_keyword_relevance respB then
        ⟨true, some ⟨d.title, url, (check_thematic_relevance respA).2,
          summarize_with_llm respSum⟩⟩
      else ⟨true, none⟩
    else ⟨false, none⟩

/-- The score of one parsed Score/Justification match. -/
def sjScore (o : Option (Str × Str)) : Option Nat :=
  match o with
  | none => none
  | some (ds, _) => some (natOfDigits ds)

/-- The thematic score Stage A extracts from a response, when the
response parses. -/
def extractedScore (resp : LlmResp) : Option Nat :=
  match resp with
  | .exn => none
  | .ok txt =>
    match searchFinal (trim txt) with
    | none => none
    | some g1 => sjScore (searchSJ (trim g1))

theorem check_thematic_pass_iff (resp : LlmResp) :
    (check_thematic_relevance resp).1 = true ↔
      ∃ s, extractedScore resp = some s ∧ RELEVANCE_THRESHOLD ≤ s := by
  cases resp with
  | exn => simp [check_thematic_relevance, extractedScore]
  | ok txt =>
    simp only [check_thematic_relevance, extractedScore]
    cases hm : searchFinal (trim txt) with
    | none => simp [finVerdict]
    | some g1 =>
      simp only [finVerdict]
      cases hs : searchSJ (trim g1) with
      | none => simp [sjVerdict, sjScore]
      | some p =>
        obtain ⟨ds, just⟩ := p
        by_cases hge : RELEVANCE_THRESHOLD ≤ natOfDigits ds
        · simp [sjVerdict, sjScore, hge]
        · simp [sjVerdict, sjScore, hge]

theorem ne_low_reason {e : Str} (he : e.take 2 = ['L', 'L']) (ds : Str) :
    e ≠ ofStr "Low thematic relevance (Score: " ++ ds ++ ofStr "/10)." := by
  intro h
  have h2 := congrArg (fun l : Str => l.take 2) h
  simp only [he] at h2
  have h3 : (ofStr "Low thematic relevance (Score: " ++ ds ++ ofStr "/10).").take 2 =
      ['L', 'o'] := rfl
  rw [h3] at h2
  exact absurd h2 (by decide)

/-- C1: for a URL whose content was successfully extracted, Stage B is
called exactly when Stage A extracted a thematic score of at least 7,
and a record is appended exactly when that held and Stage B answered
yes. -/
theorem c1_two_stage_gating (url : Str) (d : ScrapeData) (respA respB respSum : LlmResp)
    (hc : d.content ≠ []) :
    ((processUrl url (some d) respA respB respSum).stageBCalled = true ↔
      ∃ s, extractedScore respA = some s ∧ RELEVANCE_THRESHOLD ≤ s) ∧
    ((processUrl url (some d) respA respB respSum).appended.isSome = true ↔
      ((∃ s, extractedScore respA = some s ∧ RELEVANCE_THRESHOLD ≤ s) ∧
        confirm_keyword_relevance respB = true)) := by
  simp only [processUrl]
  rw [if_neg hc, ← check_thematic_pass_iff]
  by_cases hA : (check_thematic_relevance respA).1 = true
  · rw [if_pos hA]
    by_cases hB : confirm_keyword_relevance respB = true
    · rw [if_pos hB]
      simp [hA, hB]
    · rw [if_neg hB]
      simp [hA, hB]
  · rw [if_neg hA]
    simp [hA]

/-- C1 witness: a concrete URL, scrape and set of LLM responses on
which the gating theorem applies. -/
theorem c1_two_stage_gating_witness :
    ((processUrl (ofStr "u") (some ⟨ofStr "T", ofStr "C"⟩)
        (.ok (ofStr "<|channel|>final<|message|>Score: 8. Justification: ok"))
        (.ok (ofStr "Yes")) (.ok (ofStr "s"))).stageBCalled = true ↔
      ∃ s, extractedScore
          (.ok (ofStr "<|channel|>final<|message|>Score: 8. Justification: ok")) = some s ∧
        RELEVANCE_THRESHOLD ≤ s) ∧
    ((processUrl (ofStr "u") (some ⟨ofStr "T", ofStr "C"⟩)
        (.ok (ofStr "<|channel|>final<|message|>Score: 8. Justification: ok"))
        (.ok (ofStr "Yes")) (.ok (ofStr "s"))).appended.isSome = true ↔
      ((∃ s, extractedScore
          (.ok (ofStr "<|channel|>final<|message|>Score: 8. Justification: ok")) = some s ∧
        RELEVANCE_THRESHOLD ≤ s) ∧
        confirm_keyword_relevance (.ok (ofStr "Yes")) = true)) :=
  c1_two_stage_gating _ _ _ _ _ (by decide)

/-- C2: an exception in either LLM stage yields a failed verdict and a
fixed analysis-error reason, a response from which no score parses
yields a failed verdict with one of the two format-error reasons, and
the three reasons are pairwise distinct and distinct from every
low-relevance reason. -/
theorem c2_thematic_error_handling (txt : Str) :
    check_thematic_relevance .exn = (false, ofStr "LLM analysis error.") ∧
    confirm_keyword_relevance .exn = false ∧
    (extractedScore (.ok txt) = none →
      check_thematic_relevance (.ok txt) =
          (false, ofStr "LLM did not produce a \x27final\x27 channel.") ∨
        check_thematic_relevance (.ok txt) =
          (false, ofStr "LLM \x27final\x27 channel had unexpected format.")) ∧
    (ofStr "LLM did not produce a \x27final\x27 channel." ≠
      ofStr "LLM \x27final\x27 channel had unexpected format.") ∧
    (ofStr "LLM did not produce a \x27final\x27 channel." ≠ ofStr "LLM analysis error.") ∧
    (ofStr "LLM \x27final\x27 channel had unexpected format." ≠
      ofStr "LLM analysis error.") ∧
    (∀ ds : Str,
      ofStr "LLM did not produce a \x27final\x27 channel." ≠
        ofStr "Low thematic relevance (Score: " ++ ds ++ ofStr "/10)." ∧
      ofStr "LLM \x27final\x27 channel had unexpected format." ≠
        ofStr "Low thematic relevance (Score: " ++ ds ++ ofStr "/10)." ∧
      ofStr "LLM analysis error." ≠
        ofStr "Low thematic relevance (Score: " ++ ds ++ ofStr "/10).") := by
  refine ⟨rfl, rfl, ?_, by decide, by decide, by decide, ?_⟩
  · intro hnone
    simp only [check_thematic_relevance]
    simp only [extractedScore] at hnone
    cases hm : searchFinal (trim txt) with
    | none => exact Or.inl rfl
    | some g1 =>
      rw [hm] at hnone
      simp only [finVerdict]
      cases hs : searchSJ (trim g1) with
      | none => exact Or.inr rfl
      | some p =>
        obtain ⟨ds, just⟩ := p
        exfalso
        have hnone2 : sjScore (searchSJ (trim g1)) = none := hnone
        rw [hs] at hnone2
        have hnone3 : some (natOfDigits ds) = none := hnone2
        cases hnone3
  · intro ds
    exact ⟨ne_low_reason (by decide) ds, ne_low_reason (by decide) ds,
      ne_low_reason (by decide) ds⟩

/-- C2 witness: a concrete unparsable response on which the
error-handling theorem applies. -/
theorem c2_thematic_error_handling_witness :
    check_thematic_relevance (.ok (ofStr "garbage")) =
        (false, ofStr "LLM did not produce a \x27final\x27 channel.") ∨
      check_thematic_relevance (.ok (ofStr "garbage")) =
        (false, ofStr "LLM \x27final\x27 channel had unexpected format.") :=
  (c2_thematic_error_handling (ofStr "garbage")).2.2.1 (by decide)

/-- C10: a summarisation failure never blocks persistence — the
summariser returns the fixed placeholder and the record is still
appended with it. -/
theorem c10_summary_failure_persists (url : Str) (d : ScrapeData) (respA respB : LlmResp)
    (hc : d.content ≠ []) (hA : (check_thematic_relevance respA).1 = true)
    (hB : confirm_keyword_relevance respB = true) :
    summarize_with_llm .exn = ofStr "Summarization failed due to an error." ∧
    (processUrl url (some d) respA respB .exn).appended =
      some ⟨d.title, url, (check_thematic_relevance respA).2,
        ofStr "Summarization failed due to an error."⟩ := by
  refine ⟨rfl, ?_⟩
  simp only [processUrl]
  rw [if_neg hc, if_pos hA, if_pos hB]
  rfl

/-- C10 witness: a concrete article that passes both stages while the
summariser raises. -/
theorem c10_summary_failure_persists_witness :
    summarize_with_llm .exn = ofStr "Summarization failed due to an error." ∧
    (processUrl (ofStr "u") (some ⟨ofStr "T", ofStr "C"⟩)
        (.ok (ofStr "<|channel|>final<|message|>Score: 9. Justification: ok"))
        (.ok (ofStr "Yes")) .exn).appended =
      some ⟨ofStr "T", ofStr "u",
        (check_thematic_relevance
          (.ok (ofStr "<|channel|>final<|message|>Score: 9. Justification: ok"))).2,
        ofStr "Summarization failed due to an error."⟩ :=
  c10_summary_failure_persists _ _ _ _ (by decide) (by decide) (by decide)

/-!
scraper_module.py: paragraph extraction and the two-strategy fetch.
The network and browser are modelled by their outcomes: a request
error or a parsed page (title and the stripped texts of its p tags).
-/

def MIN_CONTENT_LENGTH : Nat := 200

def MIN_PARAGRAPH_LENGTH : Nat := 50

/-- Python newline join. -/
def joinNl : List Str → Str
  | [] => []
  | [p] => p
  | p :: q :: r => p ++ '\n' :: joinNl (q :: r)

/-- extract_text_from_soup: keep the stripped paragraph texts of at
least MIN_PARAGRAPH_LENGTH characters, join them with newlines, and
return the stripped join when it reaches MIN_CONTENT_LENGTH. -/
def extract_text_from_soup (paras : List Str) : Option Str :=
  let kept := (paras.map trim).filter (fun p => MIN_PARAGRAPH_LENGTH ≤ p.length)
  let text := joinNl kept
  if MIN_CONTENT_LENGTH ≤ text.length then some (trim text) else none

/-- A fetched page: the title tag text when present and truthy, and
the raw paragraph texts. -/
structure SoupPage where
  title : Option Str
  paras : List Str
deriving DecidableEq

/-- Outcome of the fast requests fetch. -/
inductive FetchRes where
  | err : FetchRes
  | okPage : SoupPage → FetchRes
deriving DecidableEq

/-- A Selenium-rendered page: driver.title and the paragraph texts. -/
structure SelPage where
  title : Str
  paras : List Str
deriving DecidableEq

/-- Outcome of the Selenium fallback. -/
inductive SelOut where
  | exn : SelOut
  | ok : SelPage → SelOut
deriving DecidableEq

/-- The requests-path title default. -/
def reqTitle (t : Option Str) : Str :=
  match t with
  | some s => trim s
  | none => ofStr "No Title Found"

/-- The Selenium-path title default. -/
def selTitle (t : Str) : Str := if t ≠ [] then t else ofStr "No Title Found"

/-- The Selenium result once its extraction has run. -/
def selExtractRes (t : Str) (o : Option Str) : Option ScrapeData × Bool :=
  match o with
  | some content => (some ⟨selTitle t, content⟩, true)
  | none => (none, true)

/-- The Selenium fallback phase of get_article_content; the boolean
records that the fallback was attempted. -/
def seleniumPhase (selAvail : Bool) (sel : SelOut) : Option ScrapeData × Bool :=
  if selAvail then
    match sel with
    | .exn => (none, true)
    | .ok pg => selExtractRes pg.title (extract_text_from_soup pg.paras)
  else (none, false)

/-- The requests result once its extraction has run. -/
def reqExtractRes (selAvail : Bool) (sel : SelOut) (t : Option Str) (o : Option Str) :
    Option ScrapeData × Bool :=
  match o with
  | some content => (some ⟨reqTitle t, content⟩, false)
  | none => seleniumPhase selAvail sel

/-- get_article_content from scraper_module.py: try the fast fetch,
fall back to Selenium when it errors or extracts too little. -/
def get_article_content (selAvail : Bool) (req : FetchRes) (sel : SelOut) :
    Option ScrapeData × Bool :=
  match req with
  | .err => seleniumPhase selAvail sel
  | .okPage pg => reqExtractRes selAvail sel pg.title (extract_text_from_soup pg.paras)

theorem take1_append_left {α : Type} {A : List α} (W : List α) (h : A ≠ []) :
    (A ++ W).take 1 = A.take 1 := by
  cases A with
  | nil => cases h rfl
  | cons a t => rfl

theorem dropWhile_take1 {α : Type} (p : α → Bool) (l : List α) :
    ∀ x ∈ (l.dropWhile p).take 1, p x = false := by
  intro x hx
  cases hd : l.dropWhile p with
  | nil =>
    rw [hd] at hx
    cases hx
  | cons e t =>
    rw [hd] at hx
    have he : (e :: t).take 1 = [e] := rfl
    rw [he, List.mem_singleton] at hx
    subst hx
    exact dropWhile_first_false hd

theorem trim_eq_self {s : Str} (h1 : ∀ x ∈ s.take 1, wsC x = false)
    (h2 : ∀ x ∈ s.reverse.take 1, wsC x = false) : trim s = s := by
  unfold trim trimL trimR
  rw [dropWhile_head_false h1, dropWhile_head_false h2, List.reverse_reverse]

theorem trim_last {q : Str} : ∀ x ∈ (trim q).reverse.take 1, wsC x = false := by
  unfold trim trimR
  rw [List.reverse_reverse]
  exact dropWhile_take1 wsC _

theorem trim_head {q : Str} : ∀ x ∈ (trim q).take 1, wsC x = false := by
  intro x hx
  unfold trim trimR trimL at hx
  cases hY : (q.dropWhile wsC).reverse.dropWhile wsC with
  | nil =>
    rw [hY] at hx
    cases hx
  | cons e t =>
    rw [hY] at hx
    have hsplit : (q.dropWhile wsC).reverse.takeWhile wsC ++ (e :: t) =
        (q.dropWhile wsC).reverse := by
      rw [← hY]
      exact List.takeWhile_append_dropWhile wsC ((q.dropWhile wsC).reverse)
    have hq : q.dropWhile wsC =
        (e :: t).reverse ++ ((q.dropWhile wsC).reverse.takeWhile wsC).reverse := by
      have h3 := congrArg List.reverse hsplit
      rw [List.reverse_append, List.reverse_reverse] at h3
      exact h3.symm
    have h1 := dropWhile_take1 wsC q
    rw [hq, take1_append_left _ (by simp)] at h1
    exact h1 x hx

theorem joinNl_ne_nil {q : Str} (rest : List Str) (hq : q ≠ []) : joinNl (q :: rest) ≠ [] := by
  cases rest with
  | nil => exact hq
  | cons r2 r => simp [joinNl]

theorem joinNl_take1 {q : Str} (rest : List Str) (hq : q ≠ []) :
    (joinNl (q :: rest)).take 1 = q.take 1 := by
  cases rest with
  | nil => rfl
  | cons r2 r =>
    show (q ++ '\n' :: joinNl (r2 :: r)).take 1 = q.take 1
    exact take1_append_left _ hq

theorem joinNl_last : ∀ {ps : List Str}, (∀ p ∈ ps, p ≠ []) → ps ≠ [] →
    ∃ pl, pl ∈ ps ∧ (joinNl ps).reverse.take 1 = pl.reverse.take 1 := by
  intro ps
  induction ps with
  | nil =>
    intro _ h
    cases h rfl
  | cons p rest ih =>
    intro hne _
    cases rest with
    | nil => exact ⟨p, List.mem_cons_self _ _, rfl⟩
    | cons q r =>
      obtain ⟨pl, hpl, he⟩ := ih (fun x hx => hne x (List.mem_cons_of_mem _ hx)) (by simp)
      refine ⟨pl, List.mem_cons_of_mem _ hpl, ?_⟩
      show ((p ++ '\n' :: joinNl (q :: r)).reverse).take 1 = pl.reverse.take 1
      rw [List.reverse_append]
      have hJ : joinNl (q :: r) ≠ [] := joinNl_ne_nil r (hne q (by simp))
      have h2 : ('\n' :: joinNl (q :: r)).reverse = (joinNl (q :: r)).reverse ++ ['\n'] := by
        simp
      rw [h2, List.append_assoc, take1_append_left _ (by simp [hJ])]
      exact he

theorem trim_joinNl {ps : List Str} (hne : ps ≠ [])
    (h : ∀ p ∈ ps, p ≠ [] ∧ (∀ x ∈ p.take 1, wsC x = false) ∧
      ∀ x ∈ p.reverse.take 1, wsC x = false) :
    trim (joinNl ps) = joinNl ps := by
  cases ps with
  | nil => cases hne rfl
  | cons q rest =>
    obtain ⟨hq, hqh, _⟩ := h q (List.mem_cons_self _ _)
    apply trim_eq_self
    · rw [joinNl_take1 rest hq]
      exact hqh
    · obtain ⟨pl, hpl, he⟩ := joinNl_last (fun p hp => (h p hp).1) (by simp)
      rw [he]
      exact (h pl hpl).2.2

theorem kept_facts {paras : List Str} :
    ∀ p ∈ (paras.map trim).filter (fun p => MIN_PARAGRAPH_LENGTH ≤ p.length),
      MIN_PARAGRAPH_LENGTH ≤ p.length ∧ p ≠ [] ∧ (∀ x ∈ p.take 1, wsC x = false) ∧
        ∀ x ∈ p.reverse.take 1, wsC x = false := by
  intro p hp
  have hp2 := hp
  rw [List.mem_filter] at hp2
  have hlen : MIN_PARAGRAPH_LENGTH ≤ p.length := of_decide_eq_true hp2.2
  have hmem := hp2.1
  rw [List.mem_map] at hmem
  obtain ⟨q, _, hq⟩ := hmem
  subst hq
  refine ⟨hlen, ?_, trim_head, trim_last⟩
  intro he
  rw [he] at hlen
  simp [MIN_PARAGRAPH_LENGTH] at hlen

theorem extract_some {paras : List Str} {c : Str}
    (h : extract_text_from_soup paras = some c) :
    c = joinNl ((paras.map trim).filter (fun p => MIN_PARAGRAPH_LENGTH ≤ p.length)) ∧
      MIN_CONTENT_LENGTH ≤ c.length ∧
      (paras.map trim).filter (fun p => MIN_PARAGRAPH_LENGTH ≤ p.length) ≠ [] := by
  simp only [extract_text_from_soup] at h
  by_cases hlen : MIN_CONTENT_LENGTH ≤
      (joinNl ((paras.map trim).filter (fun p => MIN_PARAGRAPH_LENGTH ≤ p.length))).length
  · rw [if_pos hlen] at h
    injection h with h
    have hne : (paras.map trim).filter (fun p => MIN_PARAGRAPH_LENGTH ≤ p.length) ≠ [] := by
      intro he
      rw [he] at hlen
      simp [joinNl, MIN_CONTENT_LENGTH] at hlen
    have htr := trim_joinNl hne (fun p hp => (kept_facts p hp).2)
    rw [htr] at h
    refine ⟨h.symm, ?_, hne⟩
    rw [← h]
    exact hlen
  · rw [if_neg hlen] at h
    cases h

theorem get_content_inv {selAvail : Bool} {req : FetchRes} {sel : SelOut} {d : ScrapeData}
    (h : (get_article_content selAvail req sel).1 = some d) :
    ∃ paras, extract_text_from_soup paras = some d.content := by
  have hselp : ∀ s, (seleniumPhase selAvail s).1 = some d →
      ∃ paras, extract_text_from_soup paras = some d.content := by
    intro s hs
    unfold seleniumPhase at hs
    by_cases hav : selAvail = true
    · rw [if_pos hav] at hs
      cases s with
      | exn =>
        have hs2 : (none : Option ScrapeData) = some d := hs
        cases hs2
      | ok pg =>
        have hs1 : (selExtractRes pg.title (extract_text_from_soup pg.paras)).1 = some d := hs
        cases hx : extract_text_from_soup pg.paras with
        | none =>
          rw [hx] at hs1
          have hs2 : (none : Option ScrapeData) = some d := hs1
          cases hs2
        | some c =>
          rw [hx] at hs1
          have hs2 : some (⟨selTitle pg.title, c⟩ : ScrapeData) = some d := hs1
          injection hs2 with hs2
          refine ⟨pg.paras, ?_⟩
          rw [hx, ← hs2]
    · rw [if_neg hav] at hs
      have hs2 : (none : Option ScrapeData) = some d := hs
      cases hs2
  cases req with
  | err =>
    simp only [get_article_content] at h
    exact hselp sel h
  | okPage pg =>
    simp only [get_article_content] at h
    cases hx : extract_text_from_soup pg.paras with
    | none =>
      rw [hx] at h
      exact hselp sel h
    | some c =>
      rw [hx] at h
      have h2 : some (⟨reqTitle pg.title, c⟩ : ScrapeData) = some d := h
      injection h2 with h2
      exact ⟨pg.paras, by rw [hx, ← h2]⟩

/-- C8 counterexample: with the Selenium libraries unavailable, a URL
whose fast fetch fails is reported as a scrape failure with no
fallback attempt, although the rendered page had ample content. -/
theorem c8_counterexample :
    get_article_content false .err (.ok ⟨ofStr "T", [List.replicate 200 'a']⟩) =
      (none, false) := rfl

/-- C8 (amended): with the Selenium libraries available, whenever the
fast strategy fails — a network error or insufficient extracted
text — the Selenium fallback is attempted before any failure is
reported. -/
theorem c8_fallback_attempted (req : FetchRes) (sel : SelOut)
    (h : req = .err ∨ ∃ pg, req = .okPage pg ∧ extract_text_from_soup pg.paras = none) :
    (get_article_content true req sel).2 = true := by
  have hser : ∀ (t : Str) (o : Option Str), (selExtractRes t o).2 = true := by
    intro t o
    cases o <;> rfl
  have hsel : (seleniumPhase true sel).2 = true := by
    unfold seleniumPhase
    rw [if_pos rfl]
    cases sel with
    | exn => rfl
    | ok pg => exact hser pg.title (extract_text_from_soup pg.paras)
  rcases h with h | ⟨pg, hpg, hex⟩
  · subst h
    exact hsel
  · subst hpg
    simp only [get_article_content]
    rw [hex]
    exact hsel

/-- C8 witness: a concrete network failure with Selenium available. -/
theorem c8_fallback_attempted_witness :
    (get_article_content true .err (.ok ⟨ofStr "T", []⟩)).2 = true :=
  c8_fallback_attempted _ _ (Or.inl rfl)

/-- C9: any content a successful scrape returns is a newline join of
a non-empty list of paragraphs of at least 50 characters each and at
least 200 characters in total, and a paragraph set whose kept text is
shorter always extracts to a failure. -/
theorem c9_content_thresholds (selAvail : Bool) (req : FetchRes) (sel : SelOut)
    (d : ScrapeData) (h : (get_article_content selAvail req sel).1 = some d) :
    (d.content ≠ [] ∧ MIN_CONTENT_LENGTH ≤ d.content.length ∧
      ∃ ps : List Str, d.content = joinNl ps ∧ ps ≠ [] ∧
        ∀ p ∈ ps, MIN_PARAGRAPH_LENGTH ≤ p.length) ∧
    ∀ paras : List Str,
      (joinNl ((paras.map trim).filter (fun p => MIN_PARAGRAPH_LENGTH ≤ p.length))).length <
          MIN_CONTENT_LENGTH → extract_text_from_soup paras = none := by
  constructor
  · obtain ⟨paras, hex⟩ := get_content_inv h
    obtain ⟨hc, hlen, hne⟩ := extract_some hex
    refine ⟨?_, hlen, _, hc, hne, fun p hp => (kept_facts p hp).1⟩
    intro he
    rw [he] at hlen
    simp [MIN_CONTENT_LENGTH] at hlen
  · intro paras hlt
    simp only [extract_text_from_soup]
    rw [if_neg (by omega)]

/-- C9 witness: a concrete page with one 200-character paragraph. -/
theorem c9_content_thresholds_witness :
    (((⟨ofStr "No Title Found", List.replicate 200 'a'⟩ : ScrapeData).content ≠ [] ∧
      MIN_CONTENT_LENGTH ≤
        (⟨ofStr "No Title Found", List.replicate 200 'a'⟩ : ScrapeData).content.length ∧
      ∃ ps : List Str,
        (⟨ofStr "No Title Found", List.replicate 200 'a'⟩ : ScrapeData).content = joinNl ps ∧
          ps ≠ [] ∧ ∀ p ∈ ps, MIN_PARAGRAPH_LENGTH ≤ p.length) ∧
    ∀ paras : List Str,
      (joinNl ((paras.map trim).filter (fun p => MIN_PARAGRAPH_LENGTH ≤ p.length))).length <
          MIN_CONTENT_LENGTH → extract_text_from_soup paras = none) :=
  c9_content_thresholds false (.okPage ⟨none, [List.replicate 200 'a']⟩) .exn
    ⟨ofStr "No Title Found", List.replicate 200 'a'⟩ (by decide)

/-!
hermes_discoverer.py: source loading, feed processing and the article
date finder.  YAML loading and the network are modelled by their
outcomes; times are integers.
-/

/-- The value yaml.safe_load can hand back, at the granularity
load_sources inspects: a mapping whose sources key (when present)
holds a list of source descriptors, or any non-mapping document. -/
inductive YamlV where
  | vdict : Option (List Str) → YamlV
  | vother : YamlV
deriving DecidableEq

/-- What opening and parsing one YAML file does. -/
inductive YamlRes where
  | missing : YamlRes
  | raiseErr : YamlRes
  | val : YamlV → YamlRes
deriving DecidableEq

/-- How a call of load_sources ends. -/
inductive LoadOutcome where
  | ok : List Str → LoadOutcome
  | exit1 : LoadOutcome
  | exn : LoadOutcome
deriving DecidableEq

/-- load_sources from hermes_discoverer.py: the static registry is
required (missing exits, a YAML error or non-mapping document raises),
the dynamic registry is optional (missing or a non-mapping document is
skipped, but a YAML error raises uncaught). -/
def load_sources (staticY dynamicY : YamlRes) : LoadOutcome :=
  match staticY with
  | .missing => .exit1
  | .raiseErr => .exn
  | .val v =>
    match v with
    | .vother => .exn
    | .vdict sks =>
      let statics := match sks with | none => [] | some l => l
      match dynamicY with
      | .missing => .ok statics
      | .raiseErr => .exn
      | .val dv =>
        match dv with
        | .vother => .ok statics
        | .vdict dks =>
          let dyns := match dks with | none => [] | some l => l
          .ok (statics ++ dyns)

/-- C4 counterexample: a syntactically malformed dynamic registry does
not degrade to static-only sources — the YAMLError is uncaught and the
process crashes instead of proceeding. -/
theorem c4_counterexample :
    load_sources (.val (.vdict (some [ofStr "s1"]))) .raiseErr = .exn ∧
      LoadOutcome.exn ≠ .ok [ofStr "s1"] := by decide

/-- C4 (amended): load_sources fails fast when the static registry is
missing (exit) or unreadable (uncaught error), proceeds with static
sources only when the dynamic registry is absent or parses to a
non-mapping, returns statics then dynamics in registry order with no
deduplication — but an unparsable dynamic registry also crashes. -/
theorem c4_load_sources (d : YamlRes) (sl dl : List Str) :
    load_sources .missing d = .exit1 ∧
    load_sources .raiseErr d = .exn ∧
    load_sources (.val .vother) d = .exn ∧
    load_sources (.val (.vdict (some sl))) .missing = .ok sl ∧
    load_sources (.val (.vdict (some sl))) (.val .vother) = .ok sl ∧
    load_sources (.val (.vdict (some sl))) (.val (.vdict (some dl))) = .ok (sl ++ dl) ∧
    load_sources (.val (.vdict none)) (.val (.vdict (some dl))) = .ok dl ∧
    load_sources (.val (.vdict (some sl))) .raiseErr = .exn :=
  ⟨rfl, rfl, rfl, rfl, rfl, rfl, by simp [load_sources], rfl⟩

/-- The publish timestamp state of one feed entry. -/
inductive PubParsed where
  | absent : PubParsed
  | unparseable : PubParsed
  | time : Int → PubParsed
deriving DecidableEq

/-- One feed entry: its link, when present, and its timestamp. -/
structure FeedEntry where
  link : Option Str
  pub : PubParsed
deriving DecidableEq

/-- The add step for an entry with a parsed timestamp. -/
def rssAddTime (found : List Str) (l : Str) (t cutoff : Int) : List Str :=
  if cutoff ≤ t then
    if normalize_url l ∈ found then found else found ++ [normalize_url l]
  else found

/-- The entry handling once the link is known. -/
def rssPub (found : List Str) (l : Str) (p : PubParsed) (cutoff : Int) : List Str :=
  match p with
  | .absent => found
  | .unparseable => found
  | .time t => rssAddTime found l t cutoff

/-- One iteration of the entry loop of process_rss_source. -/
def rssStep (found : List Str) (e : FeedEntry) (cutoff : Int) : List Str :=
  match e.link with
  | none => found
  | some l => rssPub found l e.pub cutoff

/-- process_rss_source from hermes_discoverer.py: false on an empty
feed, else fold the entry loop over the found set. -/
def process_rss_source (entries : List FeedEntry) (found : List Str) (cutoff : Int) :
    Bool × List Str :=
  match entries with
  | [] => (false, found)
  | _ => (true, entries.foldl (fun acc e => rssStep acc e cutoff) found)

theorem rssStep_mem {found : List Str} {e : FeedEntry} {cutoff : Int} :
    ∀ x ∈ rssStep found e cutoff, x ∈ found ∨
      ∃ l t, e.link = some l ∧ e.pub = .time t ∧ cutoff ≤ t ∧ x = normalize_url l := by
  intro x hx
  unfold rssStep at hx
  cases hl : e.link with
  | none =>
    rw [hl] at hx
    exact Or.inl hx
  | some l =>
    rw [hl] at hx
    have hx2 : x ∈ rssPub found l e.pub cutoff := hx
    unfold rssPub at hx2
    cases hp : e.pub with
    | absent =>
      rw [hp] at hx2
      exact Or.inl hx2
    | unparseable =>
      rw [hp] at hx2
      exact Or.inl hx2
    | time t =>
      rw [hp] at hx2
      have hx3 : x ∈ rssAddTime found l t cutoff := hx2
      unfold rssAddTime at hx3
      by_cases ht : cutoff ≤ t
      · rw [if_pos ht] at hx3
        by_cases hm : normalize_url l ∈ found
        · rw [if_pos hm] at hx3
          exact Or.inl hx3
        · rw [if_neg hm] at hx3
          rw [List.mem_append, List.mem_singleton] at hx3
          rcases hx3 with hx3 | hx3
          · exact Or.inl hx3
          · exact Or.inr ⟨l, t, rfl, rfl, ht, hx3⟩
      · rw [if_neg ht] at hx3
        exact Or.inl hx3

theorem rss_fold_mem {cutoff : Int} : ∀ (entries : List FeedEntry) (found : List Str),
    ∀ x ∈ entries.foldl (fun acc e => rssStep acc e cutoff) found,
      x ∈ found ∨ ∃ e ∈ entries, ∃ l t, e.link = some l ∧ e.pub = .time t ∧
        cutoff ≤ t ∧ x = normalize_url l := by
  intro entries
  induction entries with
  | nil =>
    intro found x hx
    exact Or.inl hx
  | cons e rest ih =>
    intro found x hx
    rw [List.foldl_cons] at hx
    rcases ih _ x hx with hm | ⟨e2, he2, l, t, h1, h2, h3, h4⟩
    · rcases rssStep_mem x hm with hm2 | ⟨l, t, h1, h2, h3, h4⟩
      · exact Or.inl hm2
      · exact Or.inr ⟨e, List.mem_cons_self _ _, l, t, h1, h2, h3, h4⟩
    · exact Or.inr ⟨e2, List.mem_cons_of_mem _ he2, l, t, h1, h2, h3, h4⟩

/-- C6: an entry older than the cutoff is never added, an entry at
exactly the cutoff is added, an entry without a parseable timestamp is
skipped, and anything in the folded result beyond the initial set
comes from an entry with a parseable timestamp at or after the
cutoff. -/
theorem c6_rss_cutoff (e : FeedEntry) (entries : List FeedEntry) (found : List Str)
    (cutoff : Int) :
    (∀ t, e.pub = .time t → t < cutoff → rssStep found e cutoff = found) ∧
    (∀ l, e.link = some l → e.pub = .time cutoff →
      normalize_url l ∈ rssStep found e cutoff) ∧
    (e.pub = .absent ∨ e.pub = .unparseable → rssStep found e cutoff = found) ∧
    (∀ x ∈ (process_rss_source entries found cutoff).2,
      x ∈ found ∨ ∃ e2 ∈ entries, ∃ l t, e2.link = some l ∧ e2.pub = .time t ∧
        cutoff ≤ t ∧ x = normalize_url l) := by
  refine ⟨?_, ?_, ?_, ?_⟩
  · intro t hp hlt
    unfold rssStep
    cases hl : e.link with
    | none => rfl
    | some l =>
      show rssPub found l e.pub cutoff = found
      rw [hp]
      show rssAddTime found l t cutoff = found
      unfold rssAddTime
      rw [if_neg (by omega)]
  · intro l hl hp
    unfold rssStep
    rw [hl]
    show normalize_url l ∈ rssPub found l e.pub cutoff
    rw [hp]
    show normalize_url l ∈ rssAddTime found l cutoff cutoff
    unfold rssAddTime
    rw [if_pos le_rfl]
    by_cases hm : normalize_url l ∈ found
    · rw [if_pos hm]
      exact hm
    · rw [if_neg hm]
      rw [List.mem_append, List.mem_singleton]
      exact Or.inr rfl
  · intro hp
    unfold rssStep
    cases hl : e.link with
    | none => rfl
    | some l =>
      show rssPub found l e.pub cutoff = found
      rcases hp with hp | hp <;> rw [hp] <;> rfl
  · intro x hx
    cases entries with
    | nil =>
      have hx2 : x ∈ found := hx
      exact Or.inl hx2
    | cons e0 rest =>
      have hx2 : x ∈ (e0 :: rest).foldl (fun acc e2 => rssStep acc e2 cutoff) found := hx
      exact rss_fold_mem _ _ x hx2

/-- C6 witness: a feed with one entry exactly at the cutoff. -/
theorem c6_rss_cutoff_witness :
    normalize_url (ofStr "http://e.com/a") ∈
      rssStep [] ⟨some (ofStr "http://e.com/a"), .time 5⟩ 5 :=
  (c6_rss_cutoff ⟨some (ofStr "http://e.com/a"), .time 5⟩ [] [] 5).2.1
    (ofStr "http://e.com/a") rfl rfl

/-- The date signal one selector of find_article_date yields: no
matching element (or an element without the attribute), an attribute
value the date parser rejects, or a parsed timestamp. -/
inductive Signal where
  | absent : Signal
  | unparseable : Signal
  | date : Int → Signal
deriving DecidableEq

/-- find_article_date from hermes_discoverer.py over the three
selector signals in priority order: a parse failure falls through to
the NEXT selector. -/
def find_article_date : List Signal → Option Int
  | [] => none
  | s :: rest =>
    match s with
    | .absent => find_article_date rest
    | .unparseable => find_article_date rest
    | .date t => some t

/-- The date finder as the spec words it: the first matching signal
wins outright, so an unparsable first match yields no date. -/
def findDateClaim : List Signal → Option Int
  | [] => none
  | .absent :: rest => findDateClaim rest
  | .unparseable :: _ => none
  | .date t :: _ => some t

/-- The admission test of crawl_html_source: a found date at or after
the cutoff. -/
def admitsUrl (sigs : List Signal) (cutoff : Int) : Bool :=
  match find_article_date sigs with
  | none => false
  | some t => cutoff ≤ t

/-- C7 counterexample: with an unparsable first signal and a parseable
third one, the code keeps consulting later selectors and returns the
later date, while the first-match-wins reading returns nothing. -/
theorem c7_counterexample :
    find_article_date [.unparseable, .absent, .date 100] = some 100 ∧
      findDateClaim [.unparseable, .absent, .date 100] = none := by decide

/-- C7 (amended): find_article_date returns the date of the first
signal that parses, skipping absent and unparsable signals alike, and
a URL is admitted exactly when such a date exists and is at or after
the cutoff. -/
theorem c7_first_parseable (sigs : List Signal) (cutoff : Int) :
    (∀ pre t rest, sigs = pre ++ .date t :: rest →
      (∀ s ∈ pre, s = .absent ∨ s = .unparseable) → find_article_date sigs = some t) ∧
    ((∀ s ∈ sigs, s = .absent ∨ s = .unparseable) → find_article_date sigs = none) ∧
    (admitsUrl sigs cutoff = true ↔ ∃ t, find_article_date sigs = some t ∧ cutoff ≤ t) := by
  refine ⟨?_, ?_, ?_⟩
  · intro pre
    induction pre generalizing sigs with
    | nil =>
      intro t rest hs _
      subst hs
      rfl
    | cons s0 p ih =>
      intro t rest hs hpre
      subst hs
      rcases hpre s0 (List.mem_cons_self _ _) with h0 | h0 <;> subst h0
      · exact ih (p ++ .date t :: rest) t rest rfl
          (fun s hsm => hpre s (List.mem_cons_of_mem _ hsm))
      · exact ih (p ++ .date t :: rest) t rest rfl
          (fun s hsm => hpre s (List.mem_cons_of_mem _ hsm))
  · induction sigs with
    | nil => intro _; rfl
    | cons s0 rest ih =>
      intro hall
      rcases hall s0 (List.mem_cons_self _ _) with h0 | h0 <;> subst h0
      · exact ih (fun s hsm => hall s (List.mem_cons_of_mem _ hsm))
      · exact ih (fun s hsm => hall s (List.mem_cons_of_mem _ hsm))
  · unfold admitsUrl
    cases hf : find_article_date sigs with
    | none => simp
    | some t =>
      constructor
      · intro hle
        exact ⟨t, rfl, of_decide_eq_true hle⟩
      · rintro ⟨t2, ht2, hle⟩
        injection ht2 with ht2
        subst ht2
        exact decide_eq_true hle

/-- C7 witness: an absent first signal and a parseable second one at
the cutoff. -/
theorem c7_first_parseable_witness :
    find_article_date [.absent, .date 7] = some 7 ∧ admitsUrl [.absent, .date 7] 7 = true := by
  constructor
  · exact (c7_first_parseable [.absent, .date 7] 7).1 [.absent] 7 [] rfl (by decide)
  · exact ((c7_first_parseable [.absent, .date 7] 7).2.2).mpr ⟨7, by decide, le_rfl⟩

/-!
The persistent ledger: append_to_database from filter_and_save.py and
parse_database from visual_enhancer.py.
-/

/-- The exact entry text append_to_database writes. -/
def append_to_database (e : DbEntry) (dateStr : Str) : Str :=
  ofStr "--- ARTICLE START ---\nTitle: " ++ e.title ++
  ofStr "\nURL: " ++ e.url ++
  ofStr "\nDate_Processed: " ++ dateStr ++
  ofStr "\nReason: " ++ e.reason ++
  ofStr "\nSummary:\n" ++ e.summary ++
  ofStr "\n--- ARTICLE END ---\n\n"

/-- Python dict assignment for the parsed key/value lines. -/
def kvUpsert (d : List (Str × Str)) (k v : Str) : List (Str × Str) :=
  match d with
  | [] => [(k, v)]
  | (k1, v1) :: t => if k1 = k then (k1, v) :: t else (k1, v1) :: kvUpsert t k v

/-- Python dict lookup. -/
def lookupKV (d : List (Str × Str)) (k : Str) : Option Str :=
  match d with
  | [] => none
  | (k1, v1) :: t => if k1 = k then some v1 else lookupKV t k

/-- The key/value lines of one chunk: every line of the stripped chunk
holding a colon-space is split at its first occurrence, both sides
stripped, later keys overwriting earlier ones. -/
def parseChunkKV (chunk : Str) : List (Str × Str) :=
  (splitAllC '\n' (trim chunk)).foldl (fun d line =>
    match splitOnSub (ofStr ": ") line with
    | none => d
    | some (k, v) => kvUpsert d (trim k) (trim v)) []

/-- One chunk of parse_database: the key/value lines, with the Summary
key overridden by the stripped DOTALL tail after the first Summary
line. -/
def parseChunk (chunk : Str) : List (Str × Str) :=
  match splitOnSub (ofStr "Summary:\n") chunk with
  | none => parseChunkKV chunk
  | some p => kvUpsert (parseChunkKV chunk) (ofStr "Summary") (trim p.2)

/-- parse_database from visual_enhancer.py: split on the start marker
and parse every non-blank chunk. -/
def parse_database (content : Str) : List (List (Str × Str)) :=
  (splitSubAll (ofStr "--- ARTICLE START ---") content).filterMap (fun chunk =>
    if trim chunk = [] then none else some (parseChunk chunk))

/-- C3: the append/parse round trip recovers Title, URL,
Date_Processed and Reason, but not the Summary — the DOTALL Summary
pattern also captures everything through the end marker, so the
re-parsed Summary is the written summary plus the end-marker line. -/
theorem c3_roundtrip_summary_bug :
    (parse_database (append_to_database
        ⟨ofStr "T1", ofStr "http://u", ofStr "R1", ofStr "S1"⟩ (ofStr "2025-01-01"))).map
      (fun d => (lookupKV d (ofStr "Title"), lookupKV d (ofStr "URL"),
        lookupKV d (ofStr "Date_Processed"), lookupKV d (ofStr "Reason"),
        lookupKV d (ofStr "Summary"))) =
      [(some (ofStr "T1"), some (ofStr "http://u"), some (ofStr "2025-01-01"),
        some (ofStr "R1"), some (ofStr "S1\n--- ARTICLE END ---"))] ∧
    some (ofStr "S1\n--- ARTICLE END ---") ≠ some (ofStr "S1") := ⟨rfl, by decide⟩

/-- C5 witness: a URL with a www-prefixed host and a tracking key, on
which the amended idempotence theorem applies concretely. -/
theorem c5_norm_idempotent_witness :
    normalize_url (normalize_url (ofStr "http://www.example.com/a?utm_source=x&b=1")) =
      normalize_url (ofStr "http://www.example.com/a?utm_source=x&b=1") := by
  apply c5_norm_idempotent
  intro c hc
  have he : urlparseF (ofStr "http://www.example.com/a?utm_source=x&b=1") =
      some ⟨ofStr "http", ofStr "www.example.com", ofStr "/a", [],
        ofStr "utm_source=x&b=1", []⟩ := by decide
  rw [he] at hc
  injection hc with hc
  subst hc
  decide

end Hermes
